import Mathlib

/-!
Verification of the AITuberFlow workflow-execution engine
(apps/server/engine/event_bus.py and apps/server/engine/executor.py)
against its natural-language specification.

The Python code is shallowly embedded: dictionaries become association
lists (Python dicts preserve insertion order, which the embedding keeps),
asyncio tasks become entries of an explicit task table carrying a
cancellation flag, and code that can raise is modelled in Option/Except.
Python truthiness of optional strings (None and "" are falsy) is modelled
by the helper strVal.
-/

/-! ## Association-list helpers (Python dict as insertion-ordered list) -/

/-- First value bound to a key in an association list (Python d.get(k)). -/
def lookupA {α : Type} : List (String × α) → String → Option α
  | [], _ => none
  | (k, v) :: rest, key => if k = key then some v else lookupA rest key

/-- Key membership (Python k in d). -/
def containsA {α : Type} (l : List (String × α)) (key : String) : Bool :=
  (lookupA l key).isSome

/-- Remove a key (Python del d[k] / d.pop(k, None)). -/
def eraseA {α : Type} : List (String × α) → String → List (String × α)
  | [], _ => []
  | (k, v) :: rest, key =>
      if k = key then eraseA rest key else (k, v) :: eraseA rest key

/-- Replace the value at a key in place (Python d[k] = v for an existing key). -/
def setA {α : Type} : List (String × α) → String → α → List (String × α)
  | [], _, _ => []
  | (k, w) :: rest, key, v =>
      if k = key then (k, v) :: setA rest key v else (k, w) :: setA rest key v

/-- Update the value at a key with a function, in place. -/
def updateA {α : Type} : List (String × α) → String → (α → α) → List (String × α)
  | [], _, _ => []
  | (k, w) :: rest, key, f =>
      if k = key then (k, f w) :: updateA rest key f else (k, w) :: updateA rest key f

/-- Keys of an association list, in order. -/
def keysA {α : Type} (l : List (String × α)) : List String :=
  l.map Prod.fst

/-- Python truthiness for an optional string: None and "" are falsy. -/
def strVal : Option String → Option String
  | none => none
  | some s => if s = "" then none else some s

/-! ## Events and pattern matching (event_bus.py) -/

/-- Event record (class Event): type string, payload mapping, optional source
node id, timestamp. Payload values are modelled as strings; the engine treats
the payload as opaque. -/
structure Event where
  type : String
  payload : List (String × String)
  sourceNodeId : Option String
  timestamp : String
deriving DecidableEq, Repr

/-- Item of the regular expression produced by
pattern.replace(".", "\\.").replace("*", ".*"): a literal character
(either an ordinary character or an escaped dot) or the two-character
fragment dot-star, which in Python re matches any run of non-newline
characters. -/
inductive RegexItem where
  | lit : Char → RegexItem
  | dotStar : RegexItem
deriving DecidableEq, Repr

/-- Characters that Python re treats specially when they appear bare in the
produced pattern (the source only escapes the dot and rewrites the star, so
any of these reaches re.compile unescaped, where it either changes the
meaning of the expression or raises re.error, as an unbalanced parenthesis
does). The dot and the star themselves are rewritten before compilation and
are therefore not in this set. -/
def isRegexMeta (c : Char) : Bool :=
  c = '(' || c = ')' || c = '[' || c = ']' || c = Char.ofNat 123 ||
  c = Char.ofNat 125 || c = '+' || c = '?' || c = '|' || c = '^' ||
  c = '$' || c = '\\'

/-- Compile one pattern character, following the two replace calls of
_match_pattern: a star becomes dot-star, a dot becomes an escaped (literal)
dot, an ordinary character stands for itself. A bare regex metacharacter is
not modelled (Python may raise re.error or silently change the semantics of
the produced expression), so compilation fails on it. -/
def compileChar (c : Char) : Option RegexItem :=
  if c = '*' then some RegexItem.dotStar
  else if c = '.' then some (RegexItem.lit '.')
  else if isRegexMeta c then none
  else some (RegexItem.lit c)

/-- Compile a character list to the item list of the produced regex,
failing on the first unmodelled character. -/
def compileChars : List Char → Option (List RegexItem)
  | [] => some []
  | c :: rest =>
      match compileChar c, compileChars rest with
      | some it, some items => some (it :: items)
      | _, _ => none

/-- Compile a wildcard pattern to the item list of the produced regex. -/
def compilePattern (p : String) : Option (List RegexItem) :=
  compileChars p.data

/-- End-of-input acceptance of the anchored regex: Python re matches the
final dollar at the end of the string or just before a single trailing
newline. -/
def regexAtEnd (s : List Char) : Bool :=
  s = [] || s = ['\n']

/-- Dot-star step: try the continuation on the current suffix, else consume
one non-newline character and repeat. -/
def dotStarAux (f : List Char → Bool) : List Char → Bool
  | [] => f []
  | d :: rest => f (d :: rest) || (decide (d ≠ '\n') && dotStarAux f rest)

/-- Match an item list against a character list, anchored at both ends
(the source wraps the produced regex in a caret and a dollar). Dot-star
consumes any run of non-newline characters, trying every split. -/
def regexMatch : List RegexItem → List Char → Bool
  | [], s => regexAtEnd s
  | RegexItem.lit _ :: _, [] => false
  | RegexItem.lit c :: items, d :: rest => c = d && regexMatch items rest
  | RegexItem.dotStar :: items, s => dotStarAux (regexMatch items) s

/-- EventFilter._match_pattern: a pattern containing a star is converted to
a regex (escape dots, star to dot-star, anchored); otherwise exact string
equality. The result is none when the produced regex cannot be modelled as
a literal/dot-star sequence (bare regex metacharacter in the pattern), in
which case Python may raise re.error. -/
def matchPattern (pattern : String) (eventType : String) : Option Bool :=
  if pattern.data.contains '*' then
    (compilePattern pattern).map (fun items => regexMatch items eventType.data)
  else some (pattern = eventType)

/-- EventBus._pattern_matches: same as EventFilter._match_pattern but with a
shortcut making the bare star pattern match any type. -/
def patternMatchesBus (pattern : String) (eventType : String) : Option Bool :=
  if pattern = "*" then some true
  else if pattern.data.contains '*' then
    (compilePattern pattern).map (fun items => regexMatch items eventType.data)
  else some (pattern = eventType)

/-! ## EventFilter (event_bus.py, class EventFilter) -/

/-- EventFilter: an event-type pattern and an optional condition
expression. -/
structure EventFilter where
  event : String
  condition : Option String
deriving DecidableEq, Repr

/-- EventFilter.matches. The condition branch runs only when the condition
is a non-empty string (Python: if self.condition). Condition evaluation in
the source substitutes payload values into the expression text and runs the
hosting-language eval with empty builtins, catching every failure and
returning False; it is therefore a total boolean of the condition text and
the event, abstracted here as the parameter evalCond. A result of none
models a raised re.error from the pattern conversion. -/
def EventFilter.matches (evalCond : String → Event → Bool)
    (f : EventFilter) (e : Event) : Option Bool :=
  match matchPattern f.event e.type with
  | none => none
  | some false => some false
  | some true =>
      match f.condition with
      | some c => if c = "" then some true else some (evalCond c e)
      | none => some true

/-! ## EventBus state and operations (event_bus.py, class EventBus) -/

/-- Subscription record: callback (identified by a number; the callable
itself is host code), optional attached filters, optional owning node id. -/
structure Subscription where
  callbackId : Nat
  filters : List EventFilter
  nodeId : Option String
deriving DecidableEq, Repr

/-- EventBus state: the pattern-keyed subscription table (a Python dict,
insertion-ordered), the internal asyncio queue (present after start; nothing
in the source ever enqueues into it), the running flag, the bounded event
history and its maximum length. -/
structure EventBus where
  subscriptions : List (String × List Subscription)
  eventQueue : Option (List Event)
  running : Bool
  eventHistory : List Event
  maxHistory : Nat
deriving DecidableEq, Repr

/-- EventBus.__init__. -/
def mkEventBus : EventBus :=
  { subscriptions := [], eventQueue := none, running := false,
    eventHistory := [], maxHistory := 100 }

/-- State produced by EventBus.start: fresh internal queue, running flag
set, history cleared. The subscription table is untouched (it is initialised
only by the constructor). -/
def EventBus.startState (b : EventBus) : EventBus :=
  { b with eventQueue := some [], running := true, eventHistory := [] }

/-- EventBus.start. The source method performs no already-started check and
cannot fail; the Except codomain exists so that the specification sentence
demanding an AlreadyStarted failure can be stated and compared. -/
def EventBus.start (b : EventBus) : Except String EventBus :=
  Except.ok b.startState

/-- EventBus.stop: clears the running flag and drains the (always empty in
the source) internal queue. Subscriptions and history are kept. -/
def EventBus.stop (b : EventBus) : EventBus :=
  { b with running := false,
           eventQueue := b.eventQueue.map (fun _ => []) }

/-- EventBus.subscribe: create the pattern key when absent (appended at the
end of the table, as in a Python dict), then append the subscription to the
pattern's list. Returns the subscription id string and the new state. -/
def EventBus.subscribe (b : EventBus) (eventType : String) (callbackId : Nat)
    (filters : List EventFilter) (nodeId : Option String) : String × EventBus :=
  let table :=
    if containsA b.subscriptions eventType then b.subscriptions
    else b.subscriptions ++ [(eventType, [])]
  let table := updateA table eventType
    (fun subs => subs ++ [{ callbackId := callbackId, filters := filters, nodeId := nodeId }])
  let n := ((lookupA table eventType).getD []).length
  (eventType ++ ":" ++ toString (n - 1), { b with subscriptions := table })

/-- Conjunction of Subscription filters inside emit
(all of f.matches(event) for f in subscription.filters), short-circuiting on
the first failure as the Python generator does; none propagates a raised
re.error. -/
def allFiltersMatch (evalCond : String → Event → Bool) (e : Event) :
    List EventFilter → Option Bool
  | [] => some true
  | f :: rest =>
      match f.matches evalCond e with
      | none => none
      | some false => some false
      | some true => allFiltersMatch evalCond e rest

/-- Inner loop of emit over one pattern's subscription list. Returns the
notified count and the ordered list of callback ids that were invoked.
callbackOk tells whether a callback returns normally; a raising callback is
still invoked (it appears in the trace) but is not counted, and dispatch
continues, matching the try/except around the call. -/
def dispatchSubs (callbackOk : Nat → Bool) (evalCond : String → Event → Bool)
    (e : Event) : List Subscription → Option (Nat × List Nat)
  | [] => some (0, [])
  | s :: rest =>
      match (if s.filters.isEmpty then some true else allFiltersMatch evalCond e s.filters) with
      | none => none
      | some false => dispatchSubs callbackOk evalCond e rest
      | some true =>
          match dispatchSubs callbackOk evalCond e rest with
          | none => none
          | some (n, tr) =>
              if callbackOk s.callbackId then some (n + 1, s.callbackId :: tr)
              else some (n, s.callbackId :: tr)

/-- Outer loop of emit over the pattern-keyed subscription table, in table
order. -/
def dispatchPatterns (callbackOk : Nat → Bool) (evalCond : String → Event → Bool)
    (e : Event) : List (String × List Subscription) → Option (Nat × List Nat)
  | [] => some (0, [])
  | (pat, subs) :: rest =>
      match patternMatchesBus pat e.type with
      | none => none
      | some false => dispatchPatterns callbackOk evalCond e rest
      | some true =>
          match dispatchSubs callbackOk evalCond e subs with
          | none => none
          | some (n1, tr1) =>
              match dispatchPatterns callbackOk evalCond e rest with
              | none => none
              | some (n2, tr2) => some (n1 + n2, tr1 ++ tr2)

/-- EventBus.emit: when the bus is not running, log a warning and return 0
with no side effect. Otherwise append the event to the bounded history and
dispatch to every matching subscription in table order. The result carries
the notified count, the ordered invocation trace and the new bus state;
none models a re.error escaping from pattern matching. -/
def EventBus.emit (callbackOk : Nat → Bool) (evalCond : String → Event → Bool)
    (b : EventBus) (e : Event) : Option (Nat × List Nat × EventBus) :=
  if !b.running then some (0, [], b)
  else
    let hist := b.eventHistory ++ [e]
    let hist := if hist.length > b.maxHistory then hist.drop (hist.length - b.maxHistory) else hist
    (dispatchPatterns callbackOk evalCond e b.subscriptions).map
      (fun p => (p.1, p.2, { b with eventHistory := hist }))

/-! ## Claim C7: totality of pattern matching -/

/-- Helper: compilation succeeds on every pattern free of bare regex
metacharacters. -/
theorem compilePattern_isSome_of_clean (l : List Char)
    (h : ∀ c ∈ l, isRegexMeta c = false) :
    ∃ items, compileChars l = some items := by
  induction l with
  | nil => exact ⟨[], rfl⟩
  | cons c rest ih =>
      have hc : isRegexMeta c = false := h c (List.mem_cons_self c rest)
      obtain ⟨items, hitems⟩ := ih (fun d hd => h d (List.mem_cons_of_mem c hd))
      have hcc : ∃ it, compileChar c = some it := by
        unfold compileChar
        by_cases h1 : c = '*'
        · exact ⟨RegexItem.dotStar, by simp [h1]⟩
        · by_cases h2 : c = '.'
          · exact ⟨RegexItem.lit '.', by simp [h1, h2]⟩
          · exact ⟨RegexItem.lit c, by simp [h1, h2, hc]⟩
      obtain ⟨it, hit⟩ := hcc
      exact ⟨it :: items, by simp [compileChars, hit, hitems]⟩

/-- Claim C7 (counterexample): pattern matching is not total. For the
pattern string containing an unbalanced parenthesis, the produced regular
expression is invalid and Python re.match raises re.error (modelled as
none), instead of returning a boolean. -/
theorem c7_pattern_match_counterexample :
    patternMatchesBus "a(b*" "x" = none ∧ matchPattern "a(b*" "x" = none := by
  constructor <;> decide

/-- Claim C7 (amended): for every pattern whose characters are free of bare
regex metacharacters (parentheses, brackets, braces, plus, question mark,
bar, caret, dollar, backslash), matching is total: it returns a boolean for
every event type; the bare star pattern matches every type, and a pattern
without a star matches exactly the identical type. Patterns with a star
match per the regex obtained by escaping dots and replacing stars with
dot-star, anchored at both ends. -/
theorem c7_pattern_match_total_amended (p t : String)
    (hclean : ∀ c ∈ p.data, isRegexMeta c = false) :
    (patternMatchesBus p t).isSome = true ∧
    (p = "*" → patternMatchesBus p t = some true) ∧
    (p.data.contains '*' = false → patternMatchesBus p t = some (decide (p = t))) := by
  refine ⟨?_, ?_, ?_⟩
  · unfold patternMatchesBus
    by_cases h1 : p = "*"
    · simp [h1]
    · by_cases h2 : '*' ∈ p.data
      · obtain ⟨items, hitems⟩ := compilePattern_isSome_of_clean p.data hclean
        simp [h1, h2, compilePattern, hitems]
      · simp [h1, h2]
  · intro h1
    simp [patternMatchesBus, h1]
  · intro h2
    have hm : '*' ∉ p.data := by simpa using h2
    have h1 : p ≠ "*" := by
      intro hp
      rw [hp] at hm
      exact hm (by decide)
  -- with no star and not the bare star pattern, the source returns equality
    simp [patternMatchesBus, h1, hm]

/-- Claim C7 (witness for the amended theorem): concrete instantiation on a
clean wildcard pattern. -/
theorem c7_pattern_match_total_witness :
    (patternMatchesBus "audio.*" "audio.play").isSome = true :=
  (c7_pattern_match_total_amended "audio.*" "audio.play" (by decide)).1

/-! ## Claim C9: start on an already-started bus -/

/-- Claim C9 (counterexample): EventBus.start performs no already-started
check. Starting a freshly constructed bus and then starting the started bus
again both succeed (the second call silently resets the queue and history
instead of failing with AlreadyStarted). -/
theorem c9_start_twice_counterexample :
    EventBus.start mkEventBus = Except.ok (EventBus.startState mkEventBus) ∧
    EventBus.start (EventBus.startState mkEventBus) =
      Except.ok (EventBus.startState (EventBus.startState mkEventBus)) := by
  constructor <;> rfl

/-- Claim C9 (amended): start never fails. On any bus state it succeeds,
setting the running flag, creating a fresh empty internal queue and clearing
the history while keeping the subscription table; in particular a first
start on a freshly constructed bus yields a running bus with an empty
subscription table and empty history. -/
theorem c9_start_amended :
    (∀ b : EventBus, EventBus.start b =
      Except.ok { b with eventQueue := some [], running := true, eventHistory := [] }) ∧
    EventBus.start mkEventBus =
      Except.ok { subscriptions := [], eventQueue := some [], running := true,
                  eventHistory := [], maxHistory := 100 } :=
  ⟨fun _ => rfl, rfl⟩

/-! ## Claim C5: emit after stop is a no-op returning 0 -/

/-- Claim C5 (confirmed): emitting on a bus on which stop has been called
(and no start intervened) returns 0, invokes no subscriber callback, and
leaves the bus state unchanged; in particular the event history is not
appended to. -/
theorem c5_emit_after_stop (callbackOk : Nat → Bool)
    (evalCond : String → Event → Bool) (b : EventBus) (e : Event) :
    EventBus.emit callbackOk evalCond (EventBus.stop b) e =
      some (0, [], EventBus.stop b) := by
  simp [EventBus.emit, EventBus.stop]

/-! ## Node specifications and event filters on nodes (executor.py) -/

/-- Declared filter entry of a node (a dict in the graph JSON): the event
key and the condition key may each be absent. -/
structure FilterDef where
  event : Option String
  condition : Option String
deriving DecidableEq, Repr

/-- Node as declared in the graph. The config mapping is opaque to the
properties verified here and is omitted. The eventFilters list may be
declared under the camel-case key or the snake-case key event_filters
(eventFiltersAlt below); _node_accepts_event reads the first truthy one. -/
structure NodeSpec where
  id : String
  type : String
  eventFilters : Option (List FilterDef)
  eventFiltersAlt : Option (List FilterDef)
deriving DecidableEq, Repr

/-- The filter list selected by
node.get("eventFilters") or node.get("event_filters"): Python or takes the
second operand when the first is None or an empty list; a final None is
returned as the empty list here, which _node_accepts_event treats
identically (both are falsy). -/
def nodeFilterList (n : NodeSpec) : List FilterDef :=
  match n.eventFilters with
  | some fs => if fs.isEmpty then n.eventFiltersAlt.getD [] else fs
  | none => n.eventFiltersAlt.getD []

/-- Loop body of WorkflowExecutor._node_accepts_event: entries whose event
key is absent or empty are skipped; otherwise an EventFilter is built and
tested, returning True on the first match. none propagates a raised
re.error. -/
def acceptsLoop (evalCond : String → Event → Bool) (e : Event) :
    List FilterDef → Option Bool
  | [] => some false
  | fd :: rest =>
      match fd.event with
      | none => acceptsLoop evalCond e rest
      | some name =>
          if name = "" then acceptsLoop evalCond e rest
          else
            match EventFilter.matches evalCond { event := name, condition := fd.condition } e with
            | none => none
            | some true => some true
            | some false => acceptsLoop evalCond e rest

/-- WorkflowExecutor._node_accepts_event: a node with no (or an empty)
filter list accepts every event; otherwise OR over the declared entries. -/
def nodeAcceptsEvent (evalCond : String → Event → Bool) (n : NodeSpec) (e : Event) :
    Option Bool :=
  let filters := nodeFilterList n
  if filters.isEmpty then some true
  else acceptsLoop evalCond e filters

/-- Specification-side acceptance of a single filter entry, following the
claim's words: the entry's pattern matches the event type and, when a
condition is declared, it evaluates truthy (an empty condition string
counts as no condition, and a pattern is required to be a non-empty
string). -/
def filterAccepts (evalCond : String → Event → Bool) (fd : FilterDef) (e : Event) : Prop :=
  ∃ name, fd.event = some name ∧ name ≠ "" ∧ matchPattern name e.type = some true ∧
    (match fd.condition with
     | some c => c = "" ∨ evalCond c e = true
     | none => True)

/-! ## Claim C8: OR semantics of node eventFilters -/

/-- Helper: on a filter list whose declared patterns are free of bare regex
metacharacters, the acceptance loop returns a boolean that is true exactly
when some entry accepts the event in the sense of filterAccepts. -/
theorem acceptsLoop_spec (evalCond : String → Event → Bool) (e : Event)
    (fds : List FilterDef)
    (hclean : ∀ fd ∈ fds, ∀ name, fd.event = some name →
      ∀ c ∈ name.data, isRegexMeta c = false) :
    ∃ b, acceptsLoop evalCond e fds = some b ∧
      (b = true ↔ ∃ fd ∈ fds, filterAccepts evalCond fd e) := by
  induction fds with
  | nil =>
      refine ⟨false, rfl, ?_⟩
      simp
  | cons fd rest ih =>
      obtain ⟨b, hb, hiff⟩ := ih (fun g hg => hclean g (List.mem_cons_of_mem fd hg))
      have skipCase : ¬ filterAccepts evalCond fd e →
          acceptsLoop evalCond e (fd :: rest) = acceptsLoop evalCond e rest →
          ∃ b, acceptsLoop evalCond e (fd :: rest) = some b ∧
            (b = true ↔ ∃ g ∈ fd :: rest, filterAccepts evalCond g e) := by
        intro hno heq
        refine ⟨b, heq ▸ hb, ?_⟩
        rw [hiff]
        constructor
        · rintro ⟨g, hg, hacc⟩
          exact ⟨g, List.mem_cons_of_mem fd hg, hacc⟩
        · rintro ⟨g, hg, hacc⟩
          rcases List.mem_cons.mp hg with hfd | hrest
          · exact absurd (hfd ▸ hacc) hno
          · exact ⟨g, hrest, hacc⟩
      match hev : fd.event with
      | none =>
          refine skipCase ?_ (by simp [acceptsLoop, hev])
          rintro ⟨name, hname, -⟩
          rw [hev] at hname
          exact Option.noConfusion hname
      | some name =>
          by_cases hne : name = ""
          · refine skipCase ?_ (by simp [acceptsLoop, hev, hne])
            rintro ⟨name2, hname2, hne2, -⟩
            rw [hev] at hname2
            exact hne2 (by rw [← Option.some_inj.mp hname2, hne])
          · -- the pattern is non-empty and clean, so matching returns a boolean
            have hsome : ∃ mb, matchPattern name e.type = some mb := by
              unfold matchPattern
              by_cases hstar : '*' ∈ name.data
              · obtain ⟨items, hitems⟩ :=
                  compilePattern_isSome_of_clean name.data
                    (hclean fd (List.mem_cons_self fd rest) name hev)
                exact ⟨regexMatch items e.type.data, by simp [hstar, compilePattern, hitems]⟩
              · exact ⟨decide (name = e.type), by simp [hstar]⟩
            obtain ⟨mb, hmb⟩ := hsome
            match hmbv : mb with
            | false =>
                refine skipCase ?_ ?_
                · rintro ⟨name2, hname2, -, hmatch, -⟩
                  have : name2 = name := by
                    rw [hev] at hname2
                    exact (Option.some_inj.mp hname2).symm
                  rw [this, hmb] at hmatch
                  exact Bool.noConfusion (Option.some_inj.mp hmatch)
                · simp [acceptsLoop, hev, hne, EventFilter.matches, hmb]
            | true =>
                -- the pattern matches; the result depends on the condition
                match hcond : fd.condition with
                | none =>
                    refine ⟨true, ?_, ?_⟩
                    · simp [acceptsLoop, hev, hne, EventFilter.matches, hmb, hcond]
                    · simp only [true_iff]
                      exact ⟨fd, List.mem_cons_self fd rest,
                        ⟨name, hev, hne, hmb, by rw [hcond]; trivial⟩⟩
                | some c =>
                    by_cases hc : c = ""
                    · refine ⟨true, ?_, ?_⟩
                      · simp [acceptsLoop, hev, hne, EventFilter.matches, hmb, hcond, hc]
                      · simp only [true_iff]
                        exact ⟨fd, List.mem_cons_self fd rest,
                          ⟨name, hev, hne, hmb, by rw [hcond]; exact Or.inl hc⟩⟩
                    · match hcv : evalCond c e with
                      | true =>
                          refine ⟨true, ?_, ?_⟩
                          · simp [acceptsLoop, hev, hne, EventFilter.matches, hmb, hcond, hc, hcv]
                          · simp only [true_iff]
                            exact ⟨fd, List.mem_cons_self fd rest,
                              ⟨name, hev, hne, hmb, by rw [hcond]; exact Or.inr hcv⟩⟩
                      | false =>
                          refine skipCase ?_ ?_
                          · rintro ⟨name2, hname2, -, -, hcok⟩
                            rw [hcond] at hcok
                            rcases hcok with h1 | h2
                            · exact hc h1
                            · rw [hcv] at h2
                              exact Bool.noConfusion h2
                          · simp [acceptsLoop, hev, hne, EventFilter.matches, hmb, hcond, hc, hcv]

/-- Claim C8 (counterexample): a node declaring the non-empty filter list
with the single entry whose event pattern is the empty string, given an
event whose type is the empty string. The claim's acceptance notion says
the entry's pattern "" matches the identical type "" and there is no
condition, so the node should be invoked; the source skips entries with a
falsy event key (if not event_name: continue) and rejects the event. -/
theorem c8_event_filters_counterexample :
    nodeAcceptsEvent (fun _ _ => false)
      { id := "n1", type := "console-output",
        eventFilters := some [{ event := some "", condition := none }],
        eventFiltersAlt := none }
      { type := "", payload := [], sourceNodeId := none, timestamp := "" } = some false ∧
    matchPattern "" "" = some true := by
  constructor <;> decide

/-- Claim C8 (amended): in event-driven mode, for a node and an event, when
every declared filter pattern is free of bare regex metacharacters,
_node_accepts_event returns a boolean b that is true exactly when the node
declares no (or an empty) filter list, or some declared entry accepts the
event — where an entry accepts when its event pattern is a declared
non-empty string that matches the event type and, if the entry carries a
non-empty condition, the condition evaluates truthy (OR across entries, AND
of pattern and condition inside one entry). Entries with an absent or empty
event pattern are ignored. -/
theorem c8_event_filters_amended (evalCond : String → Event → Bool)
    (n : NodeSpec) (e : Event)
    (hclean : ∀ fd ∈ nodeFilterList n, ∀ name, fd.event = some name →
      ∀ c ∈ name.data, isRegexMeta c = false) :
    ∃ b, nodeAcceptsEvent evalCond n e = some b ∧
      (b = true ↔ (nodeFilterList n = [] ∨
        ∃ fd ∈ nodeFilterList n, filterAccepts evalCond fd e)) := by
  unfold nodeAcceptsEvent
  by_cases hemp : (nodeFilterList n).isEmpty
  · refine ⟨true, by simp [hemp], ?_⟩
    simp only [true_iff]
    exact Or.inl (List.isEmpty_iff.mp hemp)
  · obtain ⟨b, hb, hiff⟩ := acceptsLoop_spec evalCond e (nodeFilterList n) hclean
    refine ⟨b, by simp [hemp, hb], ?_⟩
    rw [hiff]
    constructor
    · exact fun h => Or.inr h
    · rintro (h | h)
      · exact absurd h (by simpa [List.isEmpty_iff] using hemp)
      · exact h

/-- Claim C8 (witness for the amended theorem): concrete node with one
pattern-plus-condition entry and one pattern-only entry, and an event the
second entry accepts. -/
theorem c8_event_filters_witness :
    ∃ b, nodeAcceptsEvent (fun c _ => c = "event.amount > 100")
      { id := "n", type := "llm",
        eventFilters := some [{ event := some "donation", condition := some "event.amount > 100" },
                              { event := some "message.*", condition := none }],
        eventFiltersAlt := none }
      { type := "message.received", payload := [], sourceNodeId := none, timestamp := "" } = some b ∧
      (b = true ↔ (nodeFilterList
        { id := "n", type := "llm",
          eventFilters := some [{ event := some "donation", condition := some "event.amount > 100" },
                                { event := some "message.*", condition := none }],
          eventFiltersAlt := none } = [] ∨
        ∃ fd ∈ nodeFilterList
          { id := "n", type := "llm",
            eventFilters := some [{ event := some "donation", condition := some "event.amount > 100" },
                                  { event := some "message.*", condition := none }],
            eventFiltersAlt := none },
          filterAccepts (fun c _ => c = "event.amount > 100") fd
            { type := "message.received", payload := [], sourceNodeId := none, timestamp := "" })) :=
  c8_event_filters_amended (fun c _ => c = "event.amount > 100") _ _ (by decide)

/-! ## Claim C6: delivery order within a single emit -/

/-- Sequence of registrations applied to a bus: the k-th registration (0
based, in call order) subscribes with callback identifier k, its pattern
and its attached filters. -/
def subscribeAllAux : Nat → List (String × List EventFilter) → EventBus → EventBus
  | _, [], b => b
  | k, r :: rest, b => subscribeAllAux (k + 1) rest (EventBus.subscribe b r.1 k r.2 none).2

/-- Bus obtained by starting a fresh bus and performing the given
registrations in order. -/
def busOf (regs : List (String × List EventFilter)) : EventBus :=
  subscribeAllAux 0 regs (EventBus.startState mkEventBus)

/-- Callback identifiers in subscription-table order: patterns in the order
their first registration created the dict key, and within one pattern the
subscriptions in append order. emit walks the table in exactly this
order. -/
def tableOrder (b : EventBus) : List Nat :=
  b.subscriptions.flatMap (fun pr => pr.2.map Subscription.callbackId)

/-- Callback identifiers registered under one pattern key, in order. -/
def patternSubsIds (b : EventBus) (p : String) : List Nat :=
  ((lookupA b.subscriptions p).getD []).map Subscription.callbackId

/-- Indices (starting at k) of the registrations whose pattern is p. -/
def regIndicesFrom (k : Nat) : List (String × List EventFilter) → String → List Nat
  | [], _ => []
  | r :: rest, p =>
      (if r.1 = p then [k] else []) ++ regIndicesFrom (k + 1) rest p

theorem lookupA_append_some {α : Type} (l1 l2 : List (String × α)) (q : String) (v : α)
    (h : lookupA l1 q = some v) : lookupA (l1 ++ l2) q = some v := by
  induction l1 with
  | nil => exact absurd h (by simp [lookupA])
  | cons p rest ih =>
      obtain ⟨a, w⟩ := p
      by_cases ha : a = q
      · simp only [lookupA, if_pos ha] at h
        simp [lookupA, ha, h]
      · simp only [lookupA, if_neg ha] at h
        simp [lookupA, ha, ih h]

theorem lookupA_append_none {α : Type} (l1 l2 : List (String × α)) (q : String)
    (h : lookupA l1 q = none) : lookupA (l1 ++ l2) q = lookupA l2 q := by
  induction l1 with
  | nil => rfl
  | cons p rest ih =>
      obtain ⟨a, w⟩ := p
      by_cases ha : a = q
      · simp [lookupA, ha] at h
      · simp only [lookupA, if_neg ha] at h
        simp [lookupA, ha, ih h]

theorem lookupA_updateA_self {α : Type} (l : List (String × α)) (k : String) (f : α → α) :
    lookupA (updateA l k f) k = (lookupA l k).map f := by
  induction l with
  | nil => rfl
  | cons p rest ih =>
      obtain ⟨a, v⟩ := p
      by_cases h : a = k
      · subst h
        simp [updateA, lookupA]
      · simp [updateA, lookupA, h, ih]

theorem lookupA_updateA_ne {α : Type} (l : List (String × α)) (k q : String) (f : α → α)
    (h : q ≠ k) : lookupA (updateA l k f) q = lookupA l q := by
  induction l with
  | nil => rfl
  | cons p rest ih =>
      obtain ⟨a, v⟩ := p
      by_cases ha : a = k
      · subst ha
        simp [updateA, lookupA, Ne.symm h, ih]
      · by_cases haq : a = q
        · subst haq
          simp [updateA, lookupA, ha]
        · simp [updateA, lookupA, ha, haq, ih]

theorem patternSubsIds_subscribe (b : EventBus) (p0 p : String) (k : Nat)
    (fs : List EventFilter) :
    patternSubsIds (EventBus.subscribe b p0 k fs none).2 p =
      patternSubsIds b p ++ (if p0 = p then [k] else []) := by
  unfold EventBus.subscribe patternSubsIds
  by_cases hpp : p0 = p
  · subst hpp
    by_cases hc : containsA b.subscriptions p0
    · obtain ⟨vs, hvs⟩ : ∃ vs, lookupA b.subscriptions p0 = some vs := by
        unfold containsA at hc
        exact Option.isSome_iff_exists.mp hc
      simp [hc, lookupA_updateA_self, hvs]
    · have hnone : lookupA b.subscriptions p0 = none := by
        unfold containsA at hc
        simpa using hc
      have h2 : lookupA (b.subscriptions ++ [(p0, [])]) p0 = some [] := by
        rw [lookupA_append_none _ _ _ hnone]
        simp [lookupA]
      simp [hc, lookupA_updateA_self, h2, hnone]
  · have hne : p ≠ p0 := fun h => hpp h.symm
    by_cases hc : containsA b.subscriptions p0
    · simp [hc, lookupA_updateA_ne _ _ _ _ hne, hpp]
    · have happ : lookupA (b.subscriptions ++ [(p0, [])]) p = lookupA b.subscriptions p := by
        cases hl : lookupA b.subscriptions p with
        | some v => exact lookupA_append_some _ _ _ _ hl
        | none =>
            rw [lookupA_append_none _ _ _ hl]
            simp [lookupA, hpp]
      simp [hc, lookupA_updateA_ne _ _ _ _ hne, happ, hpp]

theorem patternSubsIds_subscribeAllAux (regs : List (String × List EventFilter)) :
    ∀ (k : Nat) (b : EventBus) (p : String),
      patternSubsIds (subscribeAllAux k regs b) p =
        patternSubsIds b p ++ regIndicesFrom k regs p := by
  induction regs with
  | nil =>
      intro k b p
      simp [subscribeAllAux, regIndicesFrom]
  | cons r rest ih =>
      intro k b p
      simp only [subscribeAllAux, regIndicesFrom]
      rw [ih, patternSubsIds_subscribe, List.append_assoc]

/-- Per-pattern callback lists of the built bus are exactly the indices of
the registrations that used that pattern, in registration order. -/
theorem patternSubsIds_busOf (regs : List (String × List EventFilter)) (p : String) :
    patternSubsIds (busOf regs) p = regIndicesFrom 0 regs p := by
  unfold busOf
  rw [patternSubsIds_subscribeAllAux]
  simp [patternSubsIds, EventBus.startState, mkEventBus, lookupA]

theorem regIndicesFrom_lb (regs : List (String × List EventFilter)) :
    ∀ (k : Nat) (p : String) (m : Nat), m ∈ regIndicesFrom k regs p → k ≤ m := by
  induction regs with
  | nil =>
      intro k p m hm
      simp [regIndicesFrom] at hm
  | cons r rest ih =>
      intro k p m hm
      simp only [regIndicesFrom] at hm
      rcases List.mem_append.mp hm with h1 | h2
      · by_cases hr : r.1 = p
        · simp [hr] at h1
          omega
        · simp [hr] at h1
      · exact Nat.le_of_succ_le (ih (k + 1) p m h2)

theorem regIndicesFrom_sorted (regs : List (String × List EventFilter)) :
    ∀ (k : Nat) (p : String), List.Sorted (· < ·) (regIndicesFrom k regs p) := by
  induction regs with
  | nil =>
      intro k p
      simp [regIndicesFrom]
  | cons r rest ih =>
      intro k p
      simp only [regIndicesFrom]
      by_cases hr : r.1 = p
      · simp only [hr, if_pos rfl, List.singleton_append]
        refine List.sorted_cons.mpr ⟨?_, ih (k + 1) p⟩
        intro m hm
        exact Nat.lt_of_succ_le (regIndicesFrom_lb rest (k + 1) p m hm)
      · simp [hr, ih (k + 1) p]

theorem dispatchSubs_trace_sublist (callbackOk : Nat → Bool)
    (evalCond : String → Event → Bool) (e : Event) :
    ∀ (subs : List Subscription) (n : Nat) (tr : List Nat),
      dispatchSubs callbackOk evalCond e subs = some (n, tr) →
      List.Sublist tr (subs.map Subscription.callbackId) := by
  intro subs
  induction subs with
  | nil =>
      intro n tr h
      simp only [dispatchSubs, Option.some_inj] at h
      rw [← (Prod.mk.injEq _ _ _ _).mp h |>.2]
      simp
  | cons s rest ih =>
      intro n tr h
      simp only [dispatchSubs] at h
      cases hf : (if s.filters.isEmpty then some true else allFiltersMatch evalCond e s.filters) with
      | none => rw [hf] at h; exact Option.noConfusion h
      | some fv =>
          rw [hf] at h
          cases fv with
          | false =>
              exact List.Sublist.cons _ (ih n tr h)
          | true =>
              cases hr : dispatchSubs callbackOk evalCond e rest with
              | none => rw [hr] at h; exact Option.noConfusion h
              | some p =>
                  obtain ⟨n2, tr2⟩ := p
                  rw [hr] at h
                  dsimp only at h
                  have htr : tr = s.callbackId :: tr2 := by
                    split at h <;>
                      exact (((Prod.mk.injEq _ _ _ _).mp (Option.some_inj.mp h)).2).symm
                  rw [htr]
                  exact List.Sublist.cons₂ _ (ih n2 tr2 hr)

theorem dispatchPatterns_trace_sublist (callbackOk : Nat → Bool)
    (evalCond : String → Event → Bool) (e : Event) :
    ∀ (table : List (String × List Subscription)) (n : Nat) (tr : List Nat),
      dispatchPatterns callbackOk evalCond e table = some (n, tr) →
      List.Sublist tr (table.flatMap (fun pr => pr.2.map Subscription.callbackId)) := by
  intro table
  induction table with
  | nil =>
      intro n tr h
      simp only [dispatchPatterns, Option.some_inj] at h
      rw [← (Prod.mk.injEq _ _ _ _).mp h |>.2]
      simp
  | cons pr rest ih =>
      intro n tr h
      obtain ⟨pat, subs⟩ := pr
      simp only [dispatchPatterns] at h
      cases hp : patternMatchesBus pat e.type with
      | none => rw [hp] at h; exact Option.noConfusion h
      | some pv =>
          rw [hp] at h
          cases pv with
          | false =>
              have := ih n tr h
              exact this.trans (List.sublist_append_right _ _)
          | true =>
              cases hs : dispatchSubs callbackOk evalCond e subs with
              | none => rw [hs] at h; exact Option.noConfusion h
              | some p1 =>
                  obtain ⟨n1, tr1⟩ := p1
                  rw [hs] at h
                  cases hrec : dispatchPatterns callbackOk evalCond e rest with
                  | none => rw [hrec] at h; exact Option.noConfusion h
                  | some p2 =>
                      obtain ⟨n2, tr2⟩ := p2
                      rw [hrec] at h
                      simp only [Option.some_inj] at h
                      rw [← ((Prod.mk.injEq _ _ _ _).mp h).2]
                      exact List.Sublist.append
                        (dispatchSubs_trace_sublist callbackOk evalCond e subs n1 tr1 hs)
                        (ih n2 tr2 hrec)

/-- Any successful emit delivers callbacks in an order that is a sublist of
the subscription-table order. -/
theorem emit_trace_sublist (callbackOk : Nat → Bool) (evalCond : String → Event → Bool)
    (b : EventBus) (e : Event) (n : Nat) (tr : List Nat) (b2 : EventBus)
    (h : EventBus.emit callbackOk evalCond b e = some (n, tr, b2)) :
    List.Sublist tr (tableOrder b) := by
  unfold EventBus.emit at h
  by_cases hr : b.running
  · simp only [hr, Bool.not_true, Bool.false_eq_true, if_false] at h
    obtain ⟨⟨n1, tr1⟩, hd, hmap⟩ := Option.map_eq_some'.mp h
    have : tr1 = tr := congrArg (fun t => t.2.1) hmap
    rw [← this]
    exact dispatchPatterns_trace_sublist callbackOk evalCond e b.subscriptions n1 tr1 hd
  · simp only [Bool.not_eq_true] at hr
    simp only [hr, Bool.not_false, if_true, Option.some_inj] at h
    have : tr = [] := (congrArg (fun t => t.2.1) h).symm
    rw [this]
    exact List.nil_sublist _

/-- Claim C6 (counterexample): three registrations in order — callback 0
under the bare star pattern, callback 1 under the message wildcard, callback
2 under the bare star again. Emitting one matching event invokes the
callbacks in table order 0, 2, 1: the trace is not in global registration
order (callback 2 fires before the earlier-registered callback 1), because
emit walks the pattern-keyed dict, not a global registration list. -/
theorem c6_registration_order_counterexample :
    (EventBus.emit (fun _ => true) (fun _ _ => false)
        (busOf [("*", []), ("message.*", []), ("*", [])])
        { type := "message.x", payload := [], sourceNodeId := none, timestamp := "" }).map
      (fun r => (r.1, r.2.1)) = some (3, [0, 2, 1]) ∧
    ¬ List.Pairwise (· < ·) [0, 2, 1] := by
  constructor
  · decide
  · decide

/-- Claim C6 (amended): within a single emit on a running bus built from a
sequence of registrations (the k-th registration carrying callback
identifier k), delivery is sequential and follows the subscription-table
order: the invocation trace is a sublist of tableOrder, whose per-pattern
segments list exactly the registrations of that pattern in ascending
registration order. Hence two subscriptions registered under the same
pattern fire in registration order, while subscriptions under different
patterns are grouped by the pattern key's first registration, not globally
by registration time. -/
theorem c6_delivery_order_amended (regs : List (String × List EventFilter))
    (callbackOk : Nat → Bool) (evalCond : String → Event → Bool) (e : Event)
    (n : Nat) (tr : List Nat) (b2 : EventBus)
    (h : EventBus.emit callbackOk evalCond (busOf regs) e = some (n, tr, b2)) :
    List.Sublist tr (tableOrder (busOf regs)) ∧
    (∀ p, patternSubsIds (busOf regs) p = regIndicesFrom 0 regs p) ∧
    (∀ p, List.Sorted (· < ·) (patternSubsIds (busOf regs) p)) := by
  refine ⟨emit_trace_sublist callbackOk evalCond _ e n tr b2 h, ?_, ?_⟩
  · exact fun p => patternSubsIds_busOf regs p
  · intro p
    rw [patternSubsIds_busOf regs p]
    exact regIndicesFrom_sorted regs 0 p

/-- Claim C6 (witness for the amended theorem): concrete three-registration
bus and a concrete emit, discharging the emit hypothesis by computation. -/
theorem c6_delivery_order_witness :
    List.Sublist [0, 2, 1]
      (tableOrder (busOf [("*", []), ("message.*", []), ("*", [])])) :=
  (c6_delivery_order_amended [("*", []), ("message.*", []), ("*", [])]
    (fun _ => true) (fun _ _ => false)
    { type := "message.x", payload := [], sourceNodeId := none, timestamp := "" }
    3 [0, 2, 1] _ rfl).1

/-! ## WorkflowExecutor state (executor.py, class WorkflowExecutor)

The supervisor's per-workflow-id dicts become fields of ExecutorState.
asyncio tasks are modelled by an explicit task table keyed by a numeric
task id, each entry carrying a cancellation flag and a completion flag;
task.cancel() followed by awaiting the task sets both. Timestamps and the
stored workflow_data are opaque to every verified property and are omitted
from the WorkflowRecord. -/

/-- State of one asyncio task: whether cancel() has been delivered to it,
and whether it has finished (awaiting a cancelled task completes it). -/
structure TaskState where
  cancelled : Bool
  done : Bool
deriving DecidableEq, Repr

/-- Entry of _running_workflows: the status string and the optional error
(started_at and workflow_data omitted, see above). -/
structure WorkflowRecord where
  status : String
  error : Option String
deriving DecidableEq, Repr

/-- Observable state of an EventQueue (class EventQueue): current size,
capacity, processing flag, dropped counter. -/
structure EventQueueState where
  size : Nat
  maxSize : Nat
  processing : Bool
  dropped : Nat
deriving DecidableEq, Repr

/-- Entry of the per-workflow node table (class NodeRuntime), reduced to
what the supervisor-map claims observe. -/
structure NodeRuntimeState where
  nodeId : String
  nodeType : String
  hasInstance : Bool
deriving DecidableEq, Repr

/-- WorkflowExecutor.__init__: every per-workflow map, plus the modelled
task table. Callback values are opaque host callables, identified by a
number. -/
structure ExecutorState where
  runningWorkflows : List (String × WorkflowRecord)
  eventBuses : List (String × EventBus)
  logCallbacks : List (String × Nat)
  eventCallbacks : List (String × Nat)
  statusCallbacks : List (String × Nat)
  nodeInstances : List (String × List (String × NodeRuntimeState))
  eventQueues : List (String × EventQueueState)
  sourceNodes : List (String × List String)
  queueProcessors : List (String × Nat)
  backgroundTasks : List (String × List Nat)
  tasks : List (Nat × TaskState)
deriving DecidableEq, Repr

/-- Fresh executor. -/
def emptyExecutor : ExecutorState :=
  { runningWorkflows := [], eventBuses := [], logCallbacks := [],
    eventCallbacks := [], statusCallbacks := [], nodeInstances := [],
    eventQueues := [], sourceNodes := [], queueProcessors := [],
    backgroundTasks := [], tasks := [] }

/-- Python dict assignment d[k] = v: update in place when the key exists,
else append the new key. -/
def assignA {α : Type} (l : List (String × α)) (key : String) (v : α) :
    List (String × α) :=
  if containsA l key then setA l key v else l ++ [(key, v)]

/-- Lookup in the numeric task table. -/
def lookupT : List (Nat × TaskState) → Nat → Option TaskState
  | [], _ => none
  | (k, v) :: rest, key => if k = key then some v else lookupT rest key

/-- task.cancel() followed by awaiting the task: the task receives the
cancellation and completes. -/
def cancelTask (tasks : List (Nat × TaskState)) (tid : Nat) :
    List (Nat × TaskState) :=
  tasks.map (fun p => if p.1 = tid then (p.1, { cancelled := true, done := true }) else p)

/-- Cancel a list of tasks and await them all (asyncio.gather with
return_exceptions). -/
def cancelTasks (tasks : List (Nat × TaskState)) (tids : List Nat) :
    List (Nat × TaskState) :=
  tids.foldl cancelTask tasks

/-- WorkflowExecutor.set_log_callback. -/
def setLogCallback (wid : String) (cb : Nat) (s : ExecutorState) : ExecutorState :=
  { s with logCallbacks := assignA s.logCallbacks wid cb }

/-- WorkflowExecutor.set_event_callback. -/
def setEventCallback (wid : String) (cb : Nat) (s : ExecutorState) : ExecutorState :=
  { s with eventCallbacks := assignA s.eventCallbacks wid cb }

/-- WorkflowExecutor.set_status_callback. -/
def setStatusCallback (wid : String) (cb : Nat) (s : ExecutorState) : ExecutorState :=
  { s with statusCallbacks := assignA s.statusCallbacks wid cb }

/-- NodeContext.create_task: the spawned coroutine becomes a fresh pending
task in the task table and, when the context carries the workflow's task
registry (it does for workflows started normally), the task is added to
that registry. -/
def createTask (wid : String) (tid : Nat) (s : ExecutorState) : ExecutorState :=
  { s with
      tasks := s.tasks ++ [(tid, { cancelled := false, done := false })],
      backgroundTasks :=
        if containsA s.backgroundTasks wid then
          updateA s.backgroundTasks wid (fun l => l ++ [tid])
        else s.backgroundTasks }

/-- WorkflowExecutor._cancel_background_tasks: cancel every task in the
workflow's registry, await them, then pop the registry entry. -/
def cancelBackgroundTasks (wid : String) (s : ExecutorState) : ExecutorState :=
  let tids := (lookupA s.backgroundTasks wid).getD []
  { s with
      tasks := cancelTasks s.tasks tids,
      backgroundTasks := eraseA s.backgroundTasks wid }

/-- WorkflowExecutor.stop_workflow, step by step as in the source: an early
return when the workflow is not running; cancel and await the queue
processor and drop its entry; tear the node runtimes down and drop the
node table (their teardown hooks are plugin code with no effect on the
supervisor maps); drop the source-node table; stop the event bus and drop
it; drop the event queue; drop the background-task registry (the source
deletes the registry entry WITHOUT calling _cancel_background_tasks, so
the registered tasks themselves are not cancelled here); finally set the
record's status to stopped and delete it. The log, event and status
callback maps are never touched. -/
def stopWorkflow (wid : String) (s0 : ExecutorState) : ExecutorState :=
  if ¬ containsA s0.runningWorkflows wid then s0
  else
    let s1 :=
      match lookupA s0.queueProcessors wid with
      | some tid =>
          { s0 with
              tasks := cancelTask s0.tasks tid,
              queueProcessors := eraseA s0.queueProcessors wid }
      | none => s0
    let s2 := { s1 with nodeInstances := eraseA s1.nodeInstances wid }
    let s3 := { s2 with sourceNodes := eraseA s2.sourceNodes wid }
    let s4 := { s3 with eventBuses := eraseA s3.eventBuses wid }
    let s5 := { s4 with eventQueues := eraseA s4.eventQueues wid }
    let s6 := { s5 with backgroundTasks := eraseA s5.backgroundTasks wid }
    { s6 with runningWorkflows := eraseA s6.runningWorkflows wid }

/-- WorkflowExecutor.start_workflow, restricted to its synchronous effects
on the supervisor maps: restart when already running; build a started
event bus and an empty background-task registry and a fresh bounded queue;
with an event callback registered, subscribe the internal forwarder under
the three host-visible patterns; record the running state. The
_execute_workflow coroutine is spawned as a task but has not run yet when
start_workflow returns (its later effects fill the node and source
tables and are modelled separately). -/
def startWorkflow (wid : String) (s0 : ExecutorState) : ExecutorState :=
  let s := if containsA s0.runningWorkflows wid then stopWorkflow wid s0 else s0
  let bus0 := EventBus.startState mkEventBus
  let bus :=
    if containsA s.eventCallbacks wid then
      (((bus0.subscribe "audio.*" 0 [] none).2.subscribe "avatar.*" 0 [] none).2.subscribe
        "subtitle" 0 [] none).2
    else bus0
  { s with
      eventBuses := assignA s.eventBuses wid bus,
      backgroundTasks := assignA s.backgroundTasks wid [],
      eventQueues := assignA s.eventQueues wid
        { size := 0, maxSize := 100, processing := false, dropped := 0 },
      runningWorkflows := assignA s.runningWorkflows wid
        { status := "running", error := none } }

/-- Report returned by WorkflowExecutor.get_status: the record's fields,
plus the three queue fields when present. -/
structure StatusReport where
  status : String
  error : Option String
  queueSize : Option Nat
  queueProcessing : Option Bool
  queueDropped : Option Nat
deriving DecidableEq, Repr

/-- The report for an id absent from the running map. -/
def idleReport : StatusReport :=
  { status := "idle", error := none, queueSize := none,
    queueProcessing := none, queueDropped := none }

/-- WorkflowExecutor.get_status. -/
def getStatus (s : ExecutorState) (wid : String) : StatusReport :=
  match lookupA s.runningWorkflows wid with
  | some r =>
      match lookupA s.eventQueues wid with
      | some q =>
          { status := r.status, error := r.error, queueSize := some q.size,
            queueProcessing := some q.processing, queueDropped := some q.dropped }
      | none =>
          { status := r.status, error := r.error, queueSize := none,
            queueProcessing := none, queueDropped := none }
  | none => idleReport

theorem lookupA_eraseA {α : Type} (l : List (String × α)) (k : String) :
    lookupA (eraseA l k) k = none := by
  induction l with
  | nil => rfl
  | cons p rest ih =>
      obtain ⟨a, v⟩ := p
      by_cases h : a = k
      · simp [eraseA, h, ih]
      · simp [eraseA, lookupA, h, ih]

/-! ## Claim C1: background tasks and stop_workflow -/

/-- Claim C1 (code bug, evaluation at the failing input): start a workflow,
register one background task through its context (create_task into the
workflow's registry), then stop it. At the moment stop is called the task
is in the registry; when stop_workflow returns the workflow is no longer
running, the registry entry is gone, yet the task was never cancelled (nor
completed): stop_workflow deletes the registry without calling
_cancel_background_tasks (the routine the completed-workflow cleanup path
uses), orphaning the running task. -/
theorem c1_stop_leaves_task_uncancelled :
    lookupA (createTask "w" 7 (startWorkflow "w" emptyExecutor)).backgroundTasks "w"
      = some [7] ∧
    lookupA (stopWorkflow "w" (createTask "w" 7 (startWorkflow "w" emptyExecutor))).runningWorkflows
      "w" = none ∧
    lookupA (stopWorkflow "w" (createTask "w" 7 (startWorkflow "w" emptyExecutor))).backgroundTasks
      "w" = none ∧
    lookupT (stopWorkflow "w" (createTask "w" 7 (startWorkflow "w" emptyExecutor))).tasks 7
      = some { cancelled := false, done := false } := by
  refine ⟨?_, ?_, ?_, ?_⟩ <;> decide

/-- Contrast for claim C1: the cancellation routine the source does define
(and calls only from the completed-linear cleanup path) would have
cancelled and awaited the registered task. -/
theorem c1_cancel_routine_would_cancel :
    lookupT (cancelBackgroundTasks "w"
      (createTask "w" 7 (startWorkflow "w" emptyExecutor))).tasks 7
      = some { cancelled := true, done := true } := by
  decide

/-! ## Claim C3: supervisor maps after stop -/

/-- Claim C3 (counterexample): set a log callback for a workflow, start the
workflow, stop it. The log-callback map still holds the workflow id after
stop returns (and so would the event and status callback maps): the claim
that EVERY per-workflow-id supervisor map is pruned is false. -/
theorem c3_stop_keeps_callback_maps :
    lookupA (stopWorkflow "w"
      (startWorkflow "w" (setLogCallback "w" 0 emptyExecutor))).logCallbacks "w"
      = some 0 ∧
    lookupA (stopWorkflow "w"
      (startWorkflow "w" (setStatusCallback "w" 5 (setLogCallback "w" 0 emptyExecutor)))).statusCallbacks
      "w" = some 5 := by
  constructor <;> decide

/-- Claim C3 (amended): for every workflow id present in the running map,
after stop_workflow returns no entry for that id remains in the running
map, the event-bus map, the event-queue map, the node-instance table, the
source-node table, the queue-processor map, or the background-task
registry. The log, event and status callback maps are not pruned and may
retain entries. -/
theorem c3_stop_clears_supervisor_maps (s : ExecutorState) (wid : String)
    (h : containsA s.runningWorkflows wid = true) :
    lookupA (stopWorkflow wid s).runningWorkflows wid = none ∧
    lookupA (stopWorkflow wid s).eventBuses wid = none ∧
    lookupA (stopWorkflow wid s).eventQueues wid = none ∧
    lookupA (stopWorkflow wid s).nodeInstances wid = none ∧
    lookupA (stopWorkflow wid s).sourceNodes wid = none ∧
    lookupA (stopWorkflow wid s).queueProcessors wid = none ∧
    lookupA (stopWorkflow wid s).backgroundTasks wid = none := by
  unfold stopWorkflow
  simp only [h, Bool.not_true, Bool.false_eq_true, if_false]
  cases hq : lookupA s.queueProcessors wid with
  | some tid => simp [lookupA_eraseA]
  | none => simp [lookupA_eraseA, hq]

/-- Claim C3 (witness for the amended theorem): concrete started workflow. -/
theorem c3_stop_clears_supervisor_maps_witness :
    lookupA (stopWorkflow "w" (startWorkflow "w" emptyExecutor)).runningWorkflows "w" = none ∧
    lookupA (stopWorkflow "w" (startWorkflow "w" emptyExecutor)).eventBuses "w" = none ∧
    lookupA (stopWorkflow "w" (startWorkflow "w" emptyExecutor)).eventQueues "w" = none ∧
    lookupA (stopWorkflow "w" (startWorkflow "w" emptyExecutor)).nodeInstances "w" = none ∧
    lookupA (stopWorkflow "w" (startWorkflow "w" emptyExecutor)).sourceNodes "w" = none ∧
    lookupA (stopWorkflow "w" (startWorkflow "w" emptyExecutor)).queueProcessors "w" = none ∧
    lookupA (stopWorkflow "w" (startWorkflow "w" emptyExecutor)).backgroundTasks "w" = none :=
  c3_stop_clears_supervisor_maps (startWorkflow "w" emptyExecutor) "w" (by decide)

/-! ## Claim C10: get_status for absent workflow ids -/

/-- Claim C10 (confirmed): for every supervisor state, an id absent from
the running map reports exactly the idle mapping (and get_status never
raises: it is a total function of the state); the queue fields are present
only when the id is in the running map and also has an event queue. -/
theorem c10_get_status_idle (s : ExecutorState) (wid : String) :
    (lookupA s.runningWorkflows wid = none → getStatus s wid = idleReport) ∧
    ((getStatus s wid).queueSize.isSome ∨ (getStatus s wid).queueProcessing.isSome ∨
        (getStatus s wid).queueDropped.isSome →
      (lookupA s.runningWorkflows wid).isSome = true ∧
        (lookupA s.eventQueues wid).isSome = true) := by
  constructor
  · intro h
    simp [getStatus, h]
  · intro h
    cases hr : lookupA s.runningWorkflows wid with
    | none =>
        rw [getStatus] at h
        simp [hr, idleReport] at h
    | some r =>
        cases hq : lookupA s.eventQueues wid with
        | none =>
            rw [getStatus] at h
            simp [hr, hq] at h
        | some q => simp [hr, hq]

/-- Claim C10 (witness): a stopped workflow reports idle, and on a running
workflow with a queue the queue fields imply presence in both maps. -/
theorem c10_get_status_idle_witness :
    getStatus (stopWorkflow "w" (startWorkflow "w" emptyExecutor)) "w" = idleReport :=
  (c10_get_status_idle (stopWorkflow "w" (startWorkflow "w" emptyExecutor)) "w").1 (by decide)

/-! ## Graph model: connections, adjacency, BFS, Kahn (executor.py) -/

/-- Directed connection of the graph JSON; each endpoint field may be
absent (conn.get returns None). -/
structure Connection where
  fromNode : Option String
  fromPort : Option String
  toNode : Option String
  toPort : Option String
deriving DecidableEq, Repr

/-- First-occurrence deduplication, modelling the key collapsing of a
Python dict comprehension (and the append-if-absent list building of
_build_adjacency). -/
def dedupFirst : List String → List String
  | [] => []
  | x :: rest => x :: (dedupFirst rest).filter (fun y => y ≠ x)

/-- Key set of the node dicts built over a graph's nodes, in first
occurrence order. -/
def nodeIds (nodes : List NodeSpec) : List String :=
  dedupFirst (nodes.map NodeSpec.id)

/-- WorkflowExecutor._build_adjacency, as a function from a node id to its
successor list: the truthy to-ids of the connections whose truthy from-id
equals the queried id and is a node id, in connection order, first
occurrences only (the source appends only ids not already present). For
ids that are not dict keys the dict.get default [] coincides with the
function's value. No membership check is made on the to-id, so values need
not be node ids. -/
def builtAdjList (ids : List String) (conns : List Connection) (u : String) : List String :=
  dedupFirst (conns.filterMap (fun c =>
    match strVal c.fromNode, strVal c.toNode with
    | some f, some t => if f = u ∧ f ∈ ids then some t else none
    | _, _ => none))

/-- Adjacency built inside _get_execution_order: no de-duplication, and
both truthy endpoints must be node ids. -/
def linearAdjList (ids : List String) (conns : List Connection) (u : String) : List String :=
  conns.filterMap (fun c =>
    match strVal c.fromNode, strVal c.toNode with
    | some f, some t => if f = u ∧ f ∈ ids ∧ t ∈ ids then some t else none
    | _, _ => none)

/-- Breadth-first traversal shared by _get_downstream_nodes and the
reachability pass of _get_execution_order: pop the queue front, skip
visited ids, otherwise record the id, mark it visited and push its
successors at the back. (The reachability pass also pre-filters pushes by
visitedness; that only drops queue entries that would be skipped at their
pop, so the visit order and the result are unchanged.) Fuel bounds the
iteration count; callers pass the initial queue length plus the summed
successor-list lengths over all node ids, which bounds the number of pops
— each id's successor list is pushed at most once, on first visit, and
successors are node ids in every use whose result matters — so the fuel
never runs out before the queue empties. -/
def bfsAux (adjF : String → List String) :
    Nat → List String → List String → List String → List String
  | 0, _, _, result => result
  | _ + 1, [], _, result => result
  | fuel + 1, nid :: rest, visited, result =>
      if nid ∈ visited then bfsAux adjF fuel rest visited result
      else bfsAux adjF fuel (rest ++ adjF nid) (nid :: visited) (result ++ [nid])

/-- Summed successor-list length over a key set (fuel bound for bfsAux). -/
def adjTotal (adjF : String → List String) (ids : List String) : Nat :=
  (ids.map (fun u => (adjF u).length)).sum

/-- WorkflowExecutor._get_downstream_nodes. -/
def getDownstreamNodes (sourceId : String) (adjF : String → List String)
    (ids : List String) : List String :=
  bfsAux adjF ((adjF sourceId).length + adjTotal adjF ids) (adjF sourceId) [] []

/-- Inner loop of the Kahn passes: decrement the counter of every
successor that is an in-degree key, collecting (in order) the ids whose
counter just reached zero, to be appended to the work queue. -/
def decNeighbors : List String → List (String × Int) → List String →
    (List (String × Int)) × List String
  | [], deg, added => (deg, added)
  | v :: vs, deg, added =>
      match lookupA deg v with
      | none => decNeighbors vs deg added
      | some d =>
          decNeighbors vs (setA deg v (d - 1))
            (if d - 1 = 0 then added ++ [v] else added)

/-- Kahn work loop shared by _get_execution_order and
_get_execution_order_from: pop the queue front, append the id to the
order, decrement its successors' counters and enqueue those that reached
zero. Fuel bounds the pops; every caller passes the in-degree key count,
which suffices because each key is enqueued at most once (once at
initialisation when its counter is zero, or once when its strictly
decreasing counter first reaches zero). -/
def kahnLoop (adjF : String → List String) :
    Nat → List String → List (String × Int) → List String → List String
  | 0, _, _, order => order
  | _ + 1, [], _, order => order
  | fuel + 1, nid :: rest, deg, order =>
      let p := decNeighbors (adjF nid) deg []
      kahnLoop adjF fuel (rest ++ p.2) p.1 (order ++ [nid])

/-- Inbound sources counted by _get_execution_order_from for a downstream
node: the from-ids of the connections into it whose from-id equals the
source id or is another downstream id. Comparisons are raw (no
truthiness), as in the source. -/
def inbDown (sourceId : String) (downstream : List String)
    (conns : List Connection) (v : String) : List String :=
  conns.filterMap (fun c =>
    match c.fromNode with
    | some f =>
        if c.toNode = some v ∧ (f = sourceId ∨ f ∈ downstream) then some f else none
    | none => none)

/-- Zeroing pass of _get_execution_order_from: every direct successor of
the source that is an in-degree key has its whole counter reset to 0
(ready to execute). -/
def zeroDirect (dg : List (String × Int)) : List String → List (String × Int)
  | [] => dg
  | nid :: rest => zeroDirect (if containsA dg nid then setA dg nid 0 else dg) rest

/-- WorkflowExecutor._get_execution_order_from, over node ids (the source
returns the node dicts of these ids, in this order, through node_map; a
downstream id missing from node_map would raise KeyError there, a case the
well-formedness hypotheses of the theorems below exclude). -/
def getExecutionOrderFromIds (sourceId : String) (nodes : List NodeSpec)
    (conns : List Connection) : List String :=
  let ids := nodeIds nodes
  let adjF := builtAdjList ids conns
  let downstream := getDownstreamNodes sourceId adjF ids
  if downstream.isEmpty then []
  else
    let deg0 := downstream.map
      (fun v => (v, ((inbDown sourceId downstream conns v).length : Int)))
    let deg := zeroDirect deg0 (adjF sourceId)
    let q0 := downstream.filter (fun v => lookupA deg v = some 0)
    kahnLoop adjF downstream.length q0 deg []

/-- Inbound sources over the whole graph (first pass of
_get_execution_order): truthy endpoints, both node ids. -/
def wholeInbound (ids : List String) (conns : List Connection) (v : String) : List String :=
  conns.filterMap (fun c =>
    match strVal c.fromNode, strVal c.toNode with
    | some f, some t => if f ∈ ids ∧ t ∈ ids ∧ t = v then some f else none
    | _, _ => none)

/-- Inbound sources over the reachable set (second pass of
_get_execution_order): raw endpoint values tested for membership of the
reachable set, with no truthiness filter — the divergence the claim-C4
counterexample exploits. -/
def filteredInbound (reach : List String) (conns : List Connection) (v : String) : List String :=
  conns.filterMap (fun c =>
    match c.fromNode, c.toNode with
    | some f, some t => if f ∈ reach ∧ t ∈ reach ∧ t = v then some f else none
    | _, _ => none)

/-- Ids of the nodes whose type is start. -/
def startNodeIds (nodes : List NodeSpec) : List String :=
  (nodes.filter (fun n => n.type = "start")).map NodeSpec.id

/-- Entry-point policy of _get_execution_order: the start nodes when any
exist, otherwise every node id of whole-graph in-degree zero (in key
order). -/
def entryPoints (nodes : List NodeSpec) (conns : List Connection) : List String :=
  let ids := nodeIds nodes
  let starts := startNodeIds nodes
  if starts.isEmpty then
    ids.filter (fun i => (wholeInbound ids conns i).length = 0)
  else starts

/-- Reachability pass of _get_execution_order: BFS from the entry points.
The source stores the result in a Python set and later iterates it in
unspecified order; the model fixes the BFS visit order, and every verified
property is insensitive to that choice. -/
def linearReachable (nodes : List NodeSpec) (conns : List Connection) : List String :=
  let ids := nodeIds nodes
  let adjF := linearAdjList ids conns
  let entry := entryPoints nodes conns
  bfsAux adjF (entry.length + adjTotal adjF ids) entry [] []

/-- WorkflowExecutor._get_execution_order, over node ids (the source
returns the node dicts of these ids, in this order, through node_map). -/
def getExecutionOrderIds (nodes : List NodeSpec) (conns : List Connection) : List String :=
  if nodes.isEmpty then []
  else
    let ids := nodeIds nodes
    let adjF := linearAdjList ids conns
    let entry := entryPoints nodes conns
    if entry.isEmpty then []
    else
      let reach := linearReachable nodes conns
      let fdeg := reach.map (fun v => (v, ((filteredInbound reach conns v).length : Int)))
      let q0 := reach.filter (fun v => lookupA fdeg v = some 0)
      kahnLoop adjF reach.length q0 fdeg []

/-! ## Claim C2 and claim C4: counterexample graphs -/

/-- Counterexample graph for claim C2: source S feeding A and B, with a
downstream edge B to A. -/
def c2CexNodes : List NodeSpec := [
  { id := "S", type := "timer", eventFilters := none, eventFiltersAlt := none },
  { id := "A", type := "console-output", eventFilters := none, eventFiltersAlt := none },
  { id := "B", type := "data-formatter", eventFilters := none, eventFiltersAlt := none }]

/-- Connections of the claim-C2 counterexample graph. -/
def c2CexConns : List Connection := [
  { fromNode := some "S", fromPort := some "out", toNode := some "A", toPort := some "in" },
  { fromNode := some "S", fromPort := some "out", toNode := some "B", toPort := some "in" },
  { fromNode := some "B", fromPort := some "out", toNode := some "A", toPort := some "in" }]

/-- Claim C2 (counterexample): for the acyclic graph with connections S to
A, S to B and B to A, both A and B are downstream of S and the graph
carries the downstream edge B to A, yet the computed downstream execution
order is A before B. A Kahn order of the downstream subgraph in which only
the edges leaving S are treated as satisfied must run B first (A retains
in-degree one from B); the source instead resets the whole in-degree of
every direct successor of S to zero, discarding the edge from B into A. -/
theorem c2_downstream_order_counterexample :
    getExecutionOrderFromIds "S" c2CexNodes c2CexConns = ["A", "B"] ∧
    "A" ∈ getDownstreamNodes "S" (builtAdjList (nodeIds c2CexNodes) c2CexConns)
      (nodeIds c2CexNodes) ∧
    "B" ∈ getDownstreamNodes "S" (builtAdjList (nodeIds c2CexNodes) c2CexConns)
      (nodeIds c2CexNodes) ∧
    ({ fromNode := some "B", fromPort := some "out", toNode := some "A",
       toPort := some "in" } : Connection) ∈ c2CexConns := by
  refine ⟨?_, ?_, ?_, ?_⟩ <;> decide

/-- Counterexample graph for claim C4: a node whose id is the empty string
feeding node x. Python truthiness drops the connection in the
adjacency/in-degree pass (an empty from-id is falsy) but counts it in the
reachable-subgraph pass (plain set membership), so x never reaches
in-degree zero. -/
def c4CexNodes : List NodeSpec := [
  { id := "", type := "manual-input", eventFilters := none, eventFiltersAlt := none },
  { id := "x", type := "console-output", eventFilters := none, eventFiltersAlt := none }]

/-- Connection of the claim-C4 counterexample graph. -/
def c4CexConns : List Connection := [
  { fromNode := some "", fromPort := some "p", toNode := some "x", toPort := some "q" }]

/-- Claim C4 (counterexample): in the acyclic two-node linear graph with
one connection from the empty-id node to x and no start node, both nodes
are entry points (in-degree zero after the truthiness-filtered first pass)
and both are reachable, but the computed execution order is only the
empty-id node: x is excluded although it belongs to the reachable
subgraph, so the order is not a topological order of that subgraph. -/
theorem c4_linear_order_counterexample :
    linearReachable c4CexNodes c4CexConns = ["", "x"] ∧
    getExecutionOrderIds c4CexNodes c4CexConns = [""] ∧
    "x" ∉ getExecutionOrderIds c4CexNodes c4CexConns := by
  refine ⟨?_, ?_, ?_⟩ <;> decide

/-! ## Shared list lemmas for the Kahn development -/

theorem containsA_iff_keys {α : Type} (l : List (String × α)) (q : String) :
    containsA l q = true ↔ q ∈ keysA l := by
  induction l with
  | nil => simp [containsA, lookupA, keysA]
  | cons p rest ih =>
      obtain ⟨a, v⟩ := p
      by_cases h : a = q
      · subst h
        simp [containsA, lookupA, keysA]
      · simp only [containsA, lookupA, if_neg h, keysA, List.map_cons, List.mem_cons]
        constructor
        · intro hh
          exact Or.inr (ih.mp hh)
        · rintro (hh | hh)
          · exact absurd hh.symm h
          · exact ih.mpr hh

theorem keysA_setA {α : Type} (l : List (String × α)) (k : String) (x : α) :
    keysA (setA l k x) = keysA l := by
  induction l with
  | nil => rfl
  | cons p rest ih =>
      obtain ⟨a, v⟩ := p
      by_cases h : a = k
      · subst h
        simp [setA, keysA] at ih ⊢
        exact ih
      · simp [setA, keysA, h] at ih ⊢
        exact ih

theorem lookupA_setA_self {α : Type} (l : List (String × α)) (k : String) (x : α) :
    lookupA (setA l k x) k = if containsA l k then some x else none := by
  induction l with
  | nil => rfl
  | cons p rest ih =>
      obtain ⟨a, v⟩ := p
      by_cases h : a = k
      · subst h
        simp [setA, lookupA, containsA]
      · simp [setA, lookupA, containsA, h, ih]

theorem lookupA_setA_ne {α : Type} (l : List (String × α)) (k q : String) (x : α)
    (h : q ≠ k) : lookupA (setA l k x) q = lookupA l q := by
  induction l with
  | nil => rfl
  | cons p rest ih =>
      obtain ⟨a, v⟩ := p
      by_cases ha : a = k
      · subst ha
        simp [setA, lookupA, Ne.symm h, ih]
      · by_cases haq : a = q
        · subst haq
          simp [setA, lookupA, ha]
        · simp [setA, lookupA, ha, haq, ih]

theorem lookupA_mapfun {α : Type} (K : List String) (g : String → α) (v : String) :
    lookupA (K.map (fun i => (i, g i))) v = if v ∈ K then some (g v) else none := by
  induction K with
  | nil => simp [lookupA]
  | cons x rest ih =>
      by_cases h : x = v
      · subst h
        simp [lookupA]
      · have hvx : ¬ (v = x) := fun hh => h hh.symm
        simp only [List.map_cons, lookupA, if_neg h, ih, List.mem_cons]
        by_cases hv : v ∈ rest
        · simp [hv]
        · simp [hv, hvx]

theorem keysA_mapfun {α : Type} (K : List String) (g : String → α) :
    keysA (K.map (fun i => (i, g i))) = K := by
  induction K with
  | nil => rfl
  | cons x rest ih => simp [keysA] at ih ⊢; exact ih

theorem mem_dedupFirst (l : List String) (x : String) :
    x ∈ dedupFirst l ↔ x ∈ l := by
  induction l with
  | nil => simp [dedupFirst]
  | cons a rest ih =>
      simp only [dedupFirst, List.mem_cons, List.mem_filter]
      constructor
      · rintro (h | ⟨h, -⟩)
        · exact Or.inl h
        · exact Or.inr (ih.mp h)
      · rintro (h | h)
        · exact Or.inl h
        · by_cases hx : x = a
          · exact Or.inl hx
          · exact Or.inr ⟨ih.mpr h, by simpa using hx⟩

theorem nodup_dedupFirst (l : List String) : (dedupFirst l).Nodup := by
  induction l with
  | nil => simp [dedupFirst]
  | cons a rest ih =>
      simp only [dedupFirst]
      refine List.nodup_cons.mpr ⟨?_, ih.filter _⟩
      intro hmem
      have := (List.mem_filter.mp hmem).2
      simp at this

theorem count_filterMap {α : Type} (g : α → Option String) (l : List α) (x : String) :
    (l.filterMap g).count x = l.countP (fun a => g a = some x) := by
  induction l with
  | nil => simp
  | cons a rest ih =>
      cases hg : g a with
      | none =>
          rw [List.filterMap_cons_none hg, List.countP_cons, ih]
          simp [hg]
      | some y =>
          rw [List.filterMap_cons_some hg, List.count_cons, List.countP_cons, ih]
          by_cases hxy : y = x
          · simp [hg, hxy]
          · simp [hg, hxy, fun hh : x = y => hxy hh.symm]

theorem count_add_filter_ne (l : List String) (u : String) :
    (l.filter (fun w => w ≠ u)).length + l.count u = l.length := by
  induction l with
  | nil => simp
  | cons a rest ih =>
      rw [List.filter_cons, List.count_cons]
      by_cases h : a = u
      · subst h
        have hd : (decide (a ≠ a)) = false := by simp
        rw [hd]
        simp only [Bool.false_eq_true, if_false, List.length_cons, beq_self_eq_true, if_true]
        omega
      · have hd : (decide (a ≠ u)) = true := by simp [h]
        have hb : (a == u) = false := by simp [h]
        rw [hd, hb]
        simp only [if_true, List.length_cons, Bool.false_eq_true, if_false]
        omega

theorem count_filter_of_mem_keep (l : List String) (p : String → Bool) (u : String)
    (hp : p u = true) : (l.filter p).count u = l.count u := by
  induction l with
  | nil => simp
  | cons a rest ih =>
      rw [List.filter_cons]
      by_cases hpa : p a = true
      · rw [if_pos hpa, List.count_cons, List.count_cons, ih]
      · rw [if_neg hpa, ih, List.count_cons]
        have hb : (a == u) = false := by
          by_cases hau : a = u
          · subst hau
            exact absurd hp hpa
          · simp [hau]
        rw [hb]
        simp

/-! ## Properties of the Kahn inner decrement pass -/

theorem decNeighbors_keys (vs : List String) :
    ∀ (deg : List (String × Int)) (added : List String),
      keysA (decNeighbors vs deg added).1 = keysA deg := by
  induction vs with
  | nil => intro deg added; rfl
  | cons v rest ih =>
      intro deg added
      simp only [decNeighbors]
      cases hv : lookupA deg v with
      | none => exact ih deg added
      | some d => rw [ih, keysA_setA]

theorem decNeighbors_lookup (vs : List String) :
    ∀ (deg : List (String × Int)) (added : List String) (x : String),
      lookupA (decNeighbors vs deg added).1 x =
        (lookupA deg x).map (fun d => d - (vs.count x : Int)) := by
  induction vs with
  | nil =>
      intro deg added x
      cases hx : lookupA deg x <;> simp [decNeighbors, hx]
  | cons v rest ih =>
      intro deg added x
      simp only [decNeighbors]
      cases hv : lookupA deg v with
      | none =>
          rw [ih]
          by_cases hx : x = v
          · subst hx
            rw [hv]
            rfl
          · have hb : (v == x) = false := by
              simp only [beq_eq_false_iff_ne, ne_eq]
              exact fun hh => hx hh.symm
            have : rest.count x = (v :: rest).count x := by
              rw [List.count_cons, hb]
              simp
            rw [this]
      | some d =>
          rw [ih]
          by_cases hx : x = v
          · subst hx
            have hc : containsA deg x = true := by
              unfold containsA
              rw [hv]
              rfl
            rw [lookupA_setA_self, hc, hv]
            simp only [if_true, Option.map_some']
            have hcnt : (x :: rest).count x = rest.count x + 1 := by
              rw [List.count_cons]
              simp
            rw [hcnt]
            congr 1
            push_cast
            ring
          · rw [lookupA_setA_ne _ _ _ _ hx]
            have hb : (v == x) = false := by
              simp only [beq_eq_false_iff_ne, ne_eq]
              exact fun hh => hx hh.symm
            have : rest.count x = (v :: rest).count x := by
              rw [List.count_cons, hb]
              simp
            rw [this]

theorem decNeighbors_snd_acc (vs : List String) :
    ∀ (deg : List (String × Int)) (added : List String),
      (decNeighbors vs deg added).2 = added ++ (decNeighbors vs deg []).2 := by
  induction vs with
  | nil => intro deg added; simp [decNeighbors]
  | cons v rest ih =>
      intro deg added
      simp only [decNeighbors]
      cases hv : lookupA deg v with
      | none => exact ih deg added
      | some d =>
          dsimp only
          by_cases hz : d - 1 = 0
          · rw [if_pos hz, if_pos hz, ih _ (added ++ [v]), ih _ ([] ++ [v])]
            simp
          · rw [if_neg hz, if_neg hz, ih _ added]

theorem decNeighbors_snd_mem (vs : List String) :
    ∀ (deg : List (String × Int)) (x : String),
      (x ∈ (decNeighbors vs deg []).2 ↔
        ∃ d, lookupA deg x = some d ∧ 1 ≤ d ∧ d ≤ (vs.count x : Int)) := by
  induction vs with
  | nil =>
      intro deg x
      simp only [decNeighbors, List.not_mem_nil, false_iff]
      rintro ⟨d, -, h1, h2⟩
      simp at h2
      omega
  | cons v rest ih =>
      intro deg x
      simp only [decNeighbors]
      cases hv : lookupA deg v with
      | none =>
          rw [ih]
          by_cases hx : x = v
          · subst hx
            rw [hv]
            simp
          · have hb : (v == x) = false := by
              simp only [beq_eq_false_iff_ne, ne_eq]
              exact fun hh => hx hh.symm
            rw [List.count_cons, hb]
            simp
      | some d =>
          rw [decNeighbors_snd_acc, List.mem_append, ih]
          by_cases hx : x = v
          · subst hx
            have hc : containsA deg x = true := by
              unfold containsA
              rw [hv]
              rfl
            have hl : lookupA (setA deg x (d - 1)) x = some (d - 1) := by
              rw [lookupA_setA_self, hc]
              rfl
            have hcnt : (((x :: rest).count x : Nat) : Int) = (rest.count x : Int) + 1 := by
              rw [List.count_cons]
              simp
            constructor
            · rintro (h1 | h2)
              · have hz : d - 1 = 0 := by
                  by_cases hz : d - 1 = 0
                  · exact hz
                  · rw [if_neg hz] at h1
                    simp at h1
                refine ⟨d, hv, by omega, ?_⟩
                rw [hcnt]
                omega
              · obtain ⟨d2, hd2, hge, hle⟩ := h2
                rw [hl, Option.some_inj] at hd2
                refine ⟨d, hv, ?_, ?_⟩
                · omega
                · rw [hcnt]
                  omega
            · rintro ⟨d2, hd2, hge, hle⟩
              rw [hv, Option.some_inj] at hd2
              subst hd2
              rw [hcnt] at hle
              by_cases hz : d - 1 = 0
              · refine Or.inl ?_
                rw [if_pos hz]
                simp
              · refine Or.inr ⟨d - 1, hl, by omega, by omega⟩
          · have hb : (v == x) = false := by
              simp only [beq_eq_false_iff_ne, ne_eq]
              exact fun hh => hx hh.symm
            have hlx : lookupA (setA deg v (d - 1)) x = lookupA deg x :=
              lookupA_setA_ne _ _ _ _ hx
            rw [hlx, List.count_cons, hb]
            simp only [Bool.false_eq_true, if_false, Nat.add_zero]
            constructor
            · rintro (h1 | h2)
              · by_cases hz : d - 1 = 0
                · rw [if_pos hz] at h1
                  simp at h1
                  exact absurd h1 hx
                · rw [if_neg hz] at h1
                  simp at h1
              · exact h2
            · intro h
              exact Or.inr h

theorem decNeighbors_snd_nodup (vs : List String) :
    ∀ (deg : List (String × Int)), ((decNeighbors vs deg []).2).Nodup := by
  induction vs with
  | nil => intro deg; simp [decNeighbors]
  | cons v rest ih =>
      intro deg
      simp only [decNeighbors]
      cases hv : lookupA deg v with
      | none => exact ih deg
      | some d =>
          rw [decNeighbors_snd_acc]
          by_cases hz : d - 1 = 0
          · simp only [hz, if_pos rfl, List.singleton_append]
            refine List.nodup_cons.mpr ⟨?_, ih _⟩
            intro hmem
            obtain ⟨d2, hd2, hge, -⟩ := (decNeighbors_snd_mem rest _ v).mp hmem
            rw [lookupA_setA_self] at hd2
            have hc : containsA deg v = true := by
              unfold containsA
              rw [hv]
              rfl
            rw [hc] at hd2
            simp only [if_true, Option.some_inj] at hd2
            omega
          · simp only [hz, if_neg hz, List.nil_append]
            exact ih _

theorem containsA_setA {α : Type} (l : List (String × α)) (k q : String) (x : α) :
    containsA (setA l k x) q = containsA l q := by
  have h1 := containsA_iff_keys (setA l k x) q
  rw [keysA_setA] at h1
  have h2 := containsA_iff_keys l q
  by_cases hq : q ∈ keysA l
  · rw [h1.mpr hq, h2.mpr hq]
  · have a1 : containsA (setA l k x) q = false :=
      Bool.not_eq_true _ |>.mp (fun hh => hq (h1.mp hh))
    have a2 : containsA l q = false :=
      Bool.not_eq_true _ |>.mp (fun hh => hq (h2.mp hh))
    rw [a1, a2]

theorem zeroDirect_keys (zs : List String) :
    ∀ dg : List (String × Int), keysA (zeroDirect dg zs) = keysA dg := by
  induction zs with
  | nil => intro dg; rfl
  | cons n rest ih =>
      intro dg
      simp only [zeroDirect]
      rw [ih]
      by_cases h : containsA dg n
      · rw [if_pos h, keysA_setA]
      · rw [if_neg h]

theorem zeroDirect_lookup (zs : List String) :
    ∀ (dg : List (String × Int)) (x : String),
      lookupA (zeroDirect dg zs) x =
        if x ∈ zs ∧ containsA dg x = true then some 0 else lookupA dg x := by
  induction zs with
  | nil =>
      intro dg x
      simp [zeroDirect]
  | cons n rest ih =>
      intro dg x
      simp only [zeroDirect]
      rw [ih]
      have hcc : containsA (if containsA dg n then setA dg n 0 else dg) x = containsA dg x := by
        by_cases h : containsA dg n
        · rw [if_pos h, containsA_setA]
        · rw [if_neg h]
      rw [hcc]
      by_cases hA : x ∈ rest ∧ containsA dg x = true
      · rw [if_pos hA, if_pos ⟨List.mem_cons_of_mem n hA.1, hA.2⟩]
      · rw [if_neg hA]
        by_cases hx : x = n
        · subst hx
          by_cases hc : containsA dg x = true
          · rw [if_pos hc, if_pos ⟨List.mem_cons_self x rest, hc⟩]
            rw [lookupA_setA_self, hc]
            rfl
          · rw [if_neg hc, if_neg (fun hh => hc hh.2)]
        · have hne : ¬ (x ∈ n :: rest ∧ containsA dg x = true) := by
            rintro ⟨hmem, hct⟩
            rcases List.mem_cons.mp hmem with hh | hh
            · exact hx hh
            · exact hA ⟨hh, hct⟩
          rw [if_neg hne]
          by_cases hc : containsA dg n = true
          · rw [if_pos hc, lookupA_setA_ne _ _ _ _ hx]
          · rw [if_neg hc]

/-! ## Properties of the breadth-first pass -/

theorem bfsAux_nodup_closed (adjF : String → List String) (P : String → Prop)
    (hadj : ∀ u x, x ∈ adjF u → P x) :
    ∀ (fuel : Nat) (queue visited result : List String),
      result.Nodup → (∀ x ∈ result, x ∈ visited) → (∀ x ∈ result, P x) →
      (∀ x ∈ queue, P x) →
      ((bfsAux adjF fuel queue visited result).Nodup ∧
        ∀ x ∈ bfsAux adjF fuel queue visited result, P x) := by
  intro fuel
  induction fuel with
  | zero =>
      intro queue visited result h1 h2 h3 h4
      exact ⟨h1, h3⟩
  | succ fuel ih =>
      intro queue visited result h1 h2 h3 h4
      match queue with
      | [] => exact ⟨h1, h3⟩
      | nid :: rest =>
          simp only [bfsAux]
          by_cases hv : nid ∈ visited
          · rw [if_pos hv]
            exact ih rest visited result h1 h2 h3 (fun x hx => h4 x (List.mem_cons_of_mem nid hx))
          · rw [if_neg hv]
            refine ih (rest ++ adjF nid) (nid :: visited) (result ++ [nid]) ?_ ?_ ?_ ?_
            · rw [List.nodup_append]
              refine ⟨h1, List.nodup_singleton nid, ?_⟩
              intro x hx
              simp only [List.mem_singleton]
              intro hxe
              subst hxe
              exact hv (h2 x hx)
            · intro x hx
              rcases List.mem_append.mp hx with hh | hh
              · exact List.mem_cons_of_mem nid (h2 x hh)
              · simp only [List.mem_singleton] at hh
                subst hh
                exact List.mem_cons_self x visited
            · intro x hx
              rcases List.mem_append.mp hx with hh | hh
              · exact h3 x hh
              · simp only [List.mem_singleton] at hh
                subst hh
                exact h4 x (List.mem_cons_self x rest)
            · intro x hx
              rcases List.mem_append.mp hx with hh | hh
              · exact h4 x (List.mem_cons_of_mem nid hh)
              · exact hadj nid x hh

theorem filter_notmem_nil (l : List String) :
    l.filter (fun u => u ∉ ([] : List String)) = l := by
  induction l with
  | nil => rfl
  | cons a rest ih => simp [List.filter_cons, ih]

theorem filter_notmem_append_singleton (l O : List String) (n : String) :
    l.filter (fun u => u ∉ O ++ [n]) =
      (l.filter (fun u => u ∉ O)).filter (fun u => u ≠ n) := by
  induction l with
  | nil => rfl
  | cons a rest ih =>
      rw [List.filter_cons, List.filter_cons]
      by_cases h1 : a ∈ O
      · have hA : (decide (a ∉ O ++ [n])) = false := by
          simp [List.mem_append, h1]
        have hB : (decide (a ∉ O)) = false := by simp [h1]
        rw [hA, hB]
        simp only [Bool.false_eq_true, if_false]
        exact ih
      · by_cases h2 : a = n
        · subst h2
          have hA : (decide (a ∉ O ++ [a])) = false := by
            simp [List.mem_append]
          have hB : (decide (a ∉ O)) = true := by simp [h1]
          rw [hA, hB]
          simp only [Bool.false_eq_true, if_false, if_true, List.filter_cons]
          have hC : (decide (a ≠ a)) = false := by simp
          rw [hC]
          simp only [Bool.false_eq_true, if_false]
          exact ih
        · have hA : (decide (a ∉ O ++ [n])) = true := by
            simp [List.mem_append, h1, h2]
          have hB : (decide (a ∉ O)) = true := by simp [h1]
          rw [hA, hB]
          simp only [if_true, List.filter_cons]
          have hC : (decide (a ≠ n)) = true := by simp [h2]
          rw [hC]
          simp only [if_true]
          rw [ih]

/-! ## The Kahn-loop invariant and its preservation -/

/-- Invariant of the Kahn work loop, for a key set K (the in-degree dict
keys), a predicate Good singling out the keys whose counter faithfully
tracks inbound connections (in _get_execution_order_from the direct
successors of the source are zeroed and excluded), and a ground-truth
inbound-source list inb (with multiplicity). -/
structure KahnInv (adjF : String → List String) (K : List String)
    (Good : String → Prop) (inb : String → List String)
    (queue : List String) (deg : List (String × Int))
    (order : List String) : Prop where
  keys_eq : keysA deg = K
  deg_val : ∀ v ∈ K, Good v →
    lookupA deg v = some (((inb v).filter (fun u => u ∉ order)).length : Int)
  deg_npos : ∀ v ∈ K, ¬ Good v → ∃ d, lookupA deg v = some d ∧ d ≤ 0
  order_sub : ∀ x ∈ order, x ∈ K
  queue_sub : ∀ x ∈ queue, x ∈ K
  nodup : (order ++ queue).Nodup
  enq_iff : ∀ v ∈ K, Good v →
    ((v ∈ order ∨ v ∈ queue) ↔ (inb v).filter (fun u => u ∉ order) = [])
  ord_inv : ∀ j v, order.get? j = some v → Good v →
    ∀ u ∈ inb v, u ∈ order.take j

/-- One pop of the Kahn loop preserves the invariant. -/
theorem kahnInv_step (adjF : String → List String) (K : List String)
    (Good : String → Prop) (inb : String → List String)
    (Hmult : ∀ u ∈ K, ∀ v ∈ K, Good v → (adjF u).count v = (inb v).count u)
    (nid : String) (rest : List String) (deg : List (String × Int))
    (order : List String)
    (hInv : KahnInv adjF K Good inb (nid :: rest) deg order) :
    KahnInv adjF K Good inb (rest ++ (decNeighbors (adjF nid) deg []).2)
      (decNeighbors (adjF nid) deg []).1 (order ++ [nid]) := by
  obtain ⟨keys_eq, deg_val, deg_npos, order_sub, queue_sub, nodup, enq_iff, ord_inv⟩ := hInv
  have h_nidK : nid ∈ K := queue_sub nid (List.mem_cons_self nid rest)
  have h_disj := (List.nodup_append.mp nodup).2.2
  have h_nidO : nid ∉ order := fun h => h_disj h (List.mem_cons_self nid rest)
  have hshift : ∀ v : String, (inb v).filter (fun u => u ∉ order ++ [nid]) =
      ((inb v).filter (fun u => u ∉ order)).filter (fun u => u ≠ nid) :=
    fun v => filter_notmem_append_singleton (inb v) order nid
  have hcount_keep : ∀ v : String,
      ((inb v).filter (fun u => u ∉ order)).count nid = (inb v).count nid := by
    intro v
    apply count_filter_of_mem_keep
    simp [h_nidO]
  have hlen_new : ∀ v : String,
      (((inb v).filter (fun u => u ∉ order)).filter (fun u => u ≠ nid)).length
        + (inb v).count nid = ((inb v).filter (fun u => u ∉ order)).length := by
    intro v
    rw [← hcount_keep v]
    exact count_add_filter_ne _ nid
  have hAdded := fun x => decNeighbors_snd_mem (adjF nid) deg x
  have hAddedK : ∀ x ∈ (decNeighbors (adjF nid) deg []).2, x ∈ K := by
    intro x hx
    obtain ⟨d, hd, -, -⟩ := (hAdded x).mp hx
    have hct : containsA deg x = true := by
      unfold containsA
      rw [hd]
      rfl
    rw [← keys_eq]
    exact (containsA_iff_keys deg x).mp hct
  have hAdded_fresh : ∀ x ∈ (decNeighbors (adjF nid) deg []).2,
      x ∉ order ++ nid :: rest := by
    intro x hx hmem
    obtain ⟨d, hd, hge, -⟩ := (hAdded x).mp hx
    have hxK := hAddedK x hx
    by_cases hg : Good x
    · have hF : (inb x).filter (fun u => u ∉ order) = [] := by
        apply (enq_iff x hxK hg).mp
        rcases List.mem_append.mp hmem with h | h
        · exact Or.inl h
        · exact Or.inr h
      have hval := deg_val x hxK hg
      rw [hF] at hval
      rw [hval] at hd
      simp only [List.length_nil, Option.some_inj] at hd
      omega
    · obtain ⟨d2, hd2, hle⟩ := deg_npos x hxK hg
      rw [hd2] at hd
      have := Option.some_inj.mp hd
      omega
  refine ⟨?_, ?_, ?_, ?_, ?_, ?_, ?_, ?_⟩
  · rw [decNeighbors_keys, keys_eq]
  · intro v hv hg
    rw [decNeighbors_lookup, deg_val v hv hg]
    simp only [Option.map_some']
    rw [hshift v]
    have hm := Hmult nid h_nidK v hv hg
    have hlen := hlen_new v
    rw [← hm] at hlen
    congr 1
    omega
  · intro v hv hg
    obtain ⟨d, hd, hle⟩ := deg_npos v hv hg
    rw [decNeighbors_lookup, hd]
    refine ⟨d - ((adjF nid).count v : Int), rfl, by omega⟩
  · intro x hx
    rcases List.mem_append.mp hx with h | h
    · exact order_sub x h
    · simp only [List.mem_singleton] at h
      subst h
      exact h_nidK
  · intro x hx
    rcases List.mem_append.mp hx with h | h
    · exact queue_sub x (List.mem_cons_of_mem nid h)
    · exact hAddedK x h
  · have hassoc : (order ++ [nid]) ++ (rest ++ (decNeighbors (adjF nid) deg []).2)
        = (order ++ nid :: rest) ++ (decNeighbors (adjF nid) deg []).2 := by
      simp [List.append_assoc]
    rw [hassoc, List.nodup_append]
    exact ⟨nodup, decNeighbors_snd_nodup _ deg,
      fun a ha hcon => hAdded_fresh a hcon ha⟩
  · intro v hv hg
    rw [hshift v]
    constructor
    · intro hmem
      rcases hmem with h | h
      · rcases List.mem_append.mp h with ho | hn
        · have hF := (enq_iff v hv hg).mp (Or.inl ho)
          rw [hF]
          rfl
        · simp only [List.mem_singleton] at hn
          subst hn
          have hF := (enq_iff v hv hg).mp (Or.inr (List.mem_cons_self v rest))
          rw [hF]
          rfl
      · rcases List.mem_append.mp h with hr | ha
        · have hF := (enq_iff v hv hg).mp (Or.inr (List.mem_cons_of_mem nid hr))
          rw [hF]
          rfl
        · obtain ⟨d, hd, hge, hle⟩ := (hAdded v).mp ha
          rw [deg_val v hv hg] at hd
          have hdval := Option.some_inj.mp hd
          have hm := Hmult nid h_nidK v hv hg
          have hlen := hlen_new v
          rw [← hm] at hlen
          have hz : (((inb v).filter (fun u => u ∉ order)).filter
              (fun u => u ≠ nid)).length = 0 := by
            omega
          exact List.length_eq_zero.mp hz
    · intro hF
      by_cases hFold : (inb v).filter (fun u => u ∉ order) = []
      · have hmem := (enq_iff v hv hg).mpr hFold
        rcases hmem with h | h
        · exact Or.inl (List.mem_append_left _ h)
        · rcases List.mem_cons.mp h with h1 | h2
          · subst h1
            exact Or.inl (List.mem_append_right _ (List.mem_singleton.mpr rfl))
          · exact Or.inr (List.mem_append_left _ h2)
      · have hall : ∀ x ∈ (inb v).filter (fun u => u ∉ order), x = nid := by
          intro x hx
          by_contra hne
          have hmem2 : x ∈ ((inb v).filter (fun u => u ∉ order)).filter
              (fun u => u ≠ nid) := by
            rw [List.mem_filter]
            exact ⟨hx, by simp [hne]⟩
          rw [hF] at hmem2
          exact absurd hmem2 (List.not_mem_nil x)
        have hcnt : ((inb v).filter (fun u => u ∉ order)).count nid
            = ((inb v).filter (fun u => u ∉ order)).length :=
          List.count_eq_length.mpr (fun b hb => (hall b hb).symm)
        refine Or.inr (List.mem_append_right _ ((hAdded v).mpr ?_))
        have hm := Hmult nid h_nidK v hv hg
        have hlenpos : 0 < ((inb v).filter (fun u => u ∉ order)).length :=
          List.length_pos.mpr hFold
        have hcc : ((inb v).filter (fun u => u ∉ order)).length = (adjF nid).count v := by
          rw [← hcnt, hcount_keep v, hm]
        refine ⟨(((inb v).filter (fun u => u ∉ order)).length : Int),
          deg_val v hv hg, by omega, ?_⟩
        rw [hcc]
  · intro j v hj hg
    by_cases hjlt : j < order.length
    · rw [List.get?_append hjlt] at hj
      intro u hu
      rw [List.take_append_of_le_length (le_of_lt hjlt)]
      exact ord_inv j v hj hg u hu
    · have hge2 : order.length ≤ j := Nat.le_of_not_lt hjlt
      rw [List.get?_append_right hge2] at hj
      have hj0 : j - order.length = 0 ∧ v = nid := by
        cases hk : j - order.length with
        | zero =>
            rw [hk] at hj
            simp only [List.get?] at hj
            exact ⟨rfl, (Option.some_inj.mp hj).symm⟩
        | succ k =>
            rw [hk] at hj
            simp [List.get?] at hj
      obtain ⟨hj0, hvn⟩ := hj0
      subst hvn
      have hjeq : j = order.length := by omega
      subst hjeq
      have hF := (enq_iff v h_nidK hg).mp (Or.inr (List.mem_cons_self v rest))
      intro u hu
      have hunot : ¬ (u ∉ order) := by
        intro hun
        have : u ∈ (inb v).filter (fun w => w ∉ order) := by
          rw [List.mem_filter]
          exact ⟨hu, by simp [hun]⟩
        rw [hF] at this
        exact absurd this (List.not_mem_nil u)
      have huo : u ∈ order := not_not.mp hunot
      rw [List.take_append_of_le_length (le_refl order.length), List.take_length]
      exact huo

/-- Running the Kahn loop from an invariant state with enough fuel (key
count minus already-emitted count) ends with an empty queue and the
invariant holding of the returned order. -/
theorem kahn_master (adjF : String → List String) (K : List String)
    (Good : String → Prop) (inb : String → List String)
    (hK : K.Nodup)
    (Hmult : ∀ u ∈ K, ∀ v ∈ K, Good v → (adjF u).count v = (inb v).count u) :
    ∀ (fuel : Nat) (queue : List String) (deg : List (String × Int))
      (order : List String),
      KahnInv adjF K Good inb queue deg order →
      K.length ≤ fuel + order.length →
      ∃ degf, KahnInv adjF K Good inb [] degf
        (kahnLoop adjF fuel queue deg order) := by
  intro fuel
  induction fuel with
  | zero =>
      intro queue deg order hInv hfuel
      have hq : queue = [] := by
        rw [List.eq_nil_iff_forall_not_mem]
        intro x hx
        have hxK := hInv.queue_sub x hx
        have hnd := hInv.nodup
        rw [List.nodup_append] at hnd
        have hxO : x ∉ order := fun ho => hnd.2.2 ho hx
        -- order is a nodup sublist of K of full length, so it exhausts K
        have hsub : order.toFinset ⊆ K.toFinset := by
          intro a ha
          rw [List.mem_toFinset] at ha ⊢
          exact hInv.order_sub a ha
        have hcard1 : order.toFinset.card = order.length :=
          List.toFinset_card_of_nodup hnd.1
        have hcard2 : K.toFinset.card = K.length :=
          List.toFinset_card_of_nodup hK
        have heq : order.toFinset = K.toFinset := by
          apply Finset.eq_of_subset_of_card_le hsub
          rw [hcard1, hcard2]
          omega
        have : x ∈ order.toFinset := by
          rw [heq, List.mem_toFinset]
          exact hxK
        rw [List.mem_toFinset] at this
        exact hxO this
      subst hq
      exact ⟨deg, hInv⟩
  | succ fuel ih =>
      intro queue deg order hInv hfuel
      match queue with
      | [] => exact ⟨deg, hInv⟩
      | nid :: rest =>
          simp only [kahnLoop]
          refine ih (rest ++ (decNeighbors (adjF nid) deg []).2) _ (order ++ [nid])
            (kahnInv_step adjF K Good inb Hmult nid rest deg order hInv) ?_
          rw [List.length_append]
          simp only [List.length_singleton]
          omega

/-- Initial invariant: a counter table whose keys are K, whose Good
entries carry the inbound count and whose other entries are nonpositive,
with the source's initial queue (the keys of counter zero, in key
order). -/
theorem kahnInv_init (adjF : String → List String) (K : List String)
    (Good : String → Prop) (inb : String → List String)
    (hK : K.Nodup) (deg : List (String × Int))
    (hkeys : keysA deg = K)
    (hval : ∀ v ∈ K, Good v → lookupA deg v = some ((inb v).length : Int))
    (hnpos : ∀ v ∈ K, ¬ Good v → ∃ d, lookupA deg v = some d ∧ d ≤ 0) :
    KahnInv adjF K Good inb
      (K.filter (fun v => lookupA deg v = some 0)) deg [] := by
  refine ⟨hkeys, ?_, hnpos, ?_, ?_, ?_, ?_, ?_⟩
  · intro v hv hg
    rw [hval v hv hg, filter_notmem_nil]
  · intro x hx
    exact absurd hx (List.not_mem_nil x)
  · intro x hx
    exact (List.mem_filter.mp hx).1
  · simp only [List.nil_append]
    exact hK.filter _
  · intro v hv hg
    rw [filter_notmem_nil]
    constructor
    · rintro (h | h)
      · exact absurd h (List.not_mem_nil v)
      · have := (List.mem_filter.mp h).2
        rw [hval v hv hg] at this
        simp only [decide_eq_true_eq, Option.some_inj] at this
        have hlen : (inb v).length = 0 := by omega
        exact List.length_eq_zero.mp hlen
    · intro h
      refine Or.inr (List.mem_filter.mpr ⟨hv, ?_⟩)
      rw [hval v hv hg, h]
      simp
  · intro j v hj
    simp [List.get?] at hj

/-- Positions: a Good node's inbound sources all appear strictly earlier in
the final order. -/
theorem kahn_final_before (adjF : String → List String) (K : List String)
    (Good : String → Prop) (inb : String → List String)
    (degf : List (String × Int)) (R : List String)
    (hInv : KahnInv adjF K Good inb [] degf R)
    (j : Nat) (v : String) (hj : R.get? j = some v) (hg : Good v)
    (u : String) (hu : u ∈ inb v) :
    ∃ i, i < j ∧ R.get? i = some u := by
  have htake := hInv.ord_inv j v hj hg u hu
  obtain ⟨i, hi⟩ := List.mem_iff_get?.mp htake
  have hilen : i < (R.take j).length := by
    by_contra hcon
    rw [List.get?_eq_none.mpr (Nat.le_of_not_lt hcon)] at hi
    exact Option.noConfusion hi
  have hij : i < j := lt_of_lt_of_le hilen (by
    rw [List.length_take]
    exact min_le_left _ _)
  refine ⟨i, hij, ?_⟩
  rw [← List.get?_take hij]
  exact hi

/-- Completeness: a Good key all of whose inbound sources were emitted is
itself emitted. -/
theorem kahn_final_complete (adjF : String → List String) (K : List String)
    (Good : String → Prop) (inb : String → List String)
    (degf : List (String × Int)) (R : List String)
    (hInv : KahnInv adjF K Good inb [] degf R)
    (v : String) (hv : v ∈ K) (hg : Good v)
    (hall : ∀ u ∈ inb v, u ∈ R) : v ∈ R := by
  have hF : (inb v).filter (fun u => u ∉ R) = [] := by
    rw [List.filter_eq_nil]
    intro a ha
    simp [hall a ha]
  rcases (hInv.enq_iff v hv hg).mpr hF with h | h
  · exact h
  · exact absurd h (List.not_mem_nil v)

/-! ## Instantiation for claim C2 -/

theorem strVal_eq_some_iff (o : Option String) (u : String) :
    strVal o = some u ↔ o = some u ∧ u ≠ "" := by
  cases o with
  | none => simp [strVal]
  | some s =>
      simp only [strVal]
      by_cases h : s = ""
      · subst h
        simp only [if_pos rfl]
        constructor
        · intro hh
          exact Option.noConfusion hh
        · rintro ⟨h1, h2⟩
          exact absurd (Option.some_inj.mp h1).symm h2
      · simp only [if_neg h, Option.some_inj]
        constructor
        · rintro rfl
          exact ⟨rfl, h⟩
        · rintro ⟨h1, -⟩
          exact h1

theorem mem_builtAdjList (ids : List String) (conns : List Connection)
    (u v : String) :
    v ∈ builtAdjList ids conns u ↔
      u ∈ ids ∧ ∃ c ∈ conns, strVal c.fromNode = some u ∧ strVal c.toNode = some v := by
  unfold builtAdjList
  rw [mem_dedupFirst, List.mem_filterMap]
  constructor
  · rintro ⟨c, hc, hg⟩
    cases hf : strVal c.fromNode with
    | none => rw [hf] at hg; exact Option.noConfusion hg
    | some f =>
        cases ht : strVal c.toNode with
        | none => rw [hf, ht] at hg; exact Option.noConfusion hg
        | some t =>
            rw [hf, ht] at hg
            dsimp only at hg
            by_cases hcond : f = u ∧ f ∈ ids
            · rw [if_pos hcond] at hg
              have htv : t = v := Option.some_inj.mp hg
              exact ⟨hcond.1 ▸ hcond.2, c, hc, by rw [hf, hcond.1], by rw [ht, htv]⟩
            · rw [if_neg hcond] at hg
              exact Option.noConfusion hg
  · rintro ⟨hu, c, hc, hf, ht⟩
    refine ⟨c, hc, ?_⟩
    rw [hf, ht]
    dsimp only
    rw [if_pos ⟨rfl, hu⟩]

theorem mem_inbDown (sourceId : String) (K : List String) (conns : List Connection)
    (v u : String) :
    u ∈ inbDown sourceId K conns v ↔
      ∃ c ∈ conns, c.fromNode = some u ∧ c.toNode = some v ∧
        (u = sourceId ∨ u ∈ K) := by
  unfold inbDown
  rw [List.mem_filterMap]
  constructor
  · rintro ⟨c, hc, hg⟩
    cases hf : c.fromNode with
    | none => rw [hf] at hg; exact Option.noConfusion hg
    | some f =>
        rw [hf] at hg
        dsimp only at hg
        by_cases hcond : c.toNode = some v ∧ (f = sourceId ∨ f ∈ K)
        · rw [if_pos hcond] at hg
          have hfu : f = u := Option.some_inj.mp hg
          subst hfu
          exact ⟨c, hc, hf, hcond.1, hcond.2⟩
        · rw [if_neg hcond] at hg
          exact Option.noConfusion hg
  · rintro ⟨c, hc, hf, ht, hor⟩
    refine ⟨c, hc, ?_⟩
    rw [hf]
    dsimp only
    rw [if_pos ⟨ht, hor⟩]

theorem count_inbDown (sourceId : String) (K : List String) (conns : List Connection)
    (v u : String) (hu : u = sourceId ∨ u ∈ K) :
    (inbDown sourceId K conns v).count u =
      conns.countP (fun c => c.fromNode = some u ∧ c.toNode = some v) := by
  unfold inbDown
  rw [count_filterMap]
  apply List.countP_congr
  intro c hc
  simp only [decide_eq_true_eq]
  cases hf : c.fromNode with
  | none =>
      dsimp only
      constructor
      · intro hh
        exact Option.noConfusion hh
      · rintro ⟨h1, -⟩
        exact h1
  | some f =>
      dsimp only
      by_cases hcond : c.toNode = some v ∧ (f = sourceId ∨ f ∈ K)
      · rw [if_pos hcond]
        constructor
        · intro hh
          exact ⟨hh, hcond.1⟩
        · rintro ⟨h1, -⟩
          exact h1
      · rw [if_neg hcond]
        constructor
        · intro hh
          exact Option.noConfusion hh
        · rintro ⟨h1, h2⟩
          have hfu : f = u := Option.some_inj.mp h1
          subst hfu
          exact absurd ⟨h2, hu⟩ hcond

/-- Claim C2 (amended): in event-driven mode, over a graph whose node ids
are non-empty, whose connections never duplicate an ordered endpoint pair
and whose target endpoints are node ids, the downstream execution order
computed for a source S is duplicate-free, contains only nodes downstream
of S, and respects every connection u to v between downstream nodes whose
target v is NOT a direct successor of S: u is executed strictly before v.
Direct successors of S have their entire in-degree treated as already
satisfied (not only the edges leaving S), so a direct successor may run
before a downstream node that feeds it — the divergence the counterexample
exhibits — and nodes on downstream cycles may be omitted from the order
altogether. -/
theorem c2_downstream_order_amended (sourceId : String) (nodes : List NodeSpec)
    (conns : List Connection)
    (hneIds : ∀ n ∈ nodes, n.id ≠ "")
    (hwfTo : ∀ c ∈ conns, ∀ t, strVal c.toNode = some t → t ∈ nodeIds nodes)
    (hpairs : ∀ u v : String,
      conns.countP (fun c => c.fromNode = some u ∧ c.toNode = some v) ≤ 1) :
    (getExecutionOrderFromIds sourceId nodes conns).Nodup ∧
    (∀ x ∈ getExecutionOrderFromIds sourceId nodes conns,
      x ∈ getDownstreamNodes sourceId (builtAdjList (nodeIds nodes) conns)
        (nodeIds nodes)) ∧
    (∀ c ∈ conns, ∀ u v : String, c.fromNode = some u → c.toNode = some v →
      u ∈ getDownstreamNodes sourceId (builtAdjList (nodeIds nodes) conns)
        (nodeIds nodes) →
      v ∉ builtAdjList (nodeIds nodes) conns sourceId →
      ∀ j, (getExecutionOrderFromIds sourceId nodes conns).get? j = some v →
        ∃ i, i < j ∧ (getExecutionOrderFromIds sourceId nodes conns).get? i = some u) := by
  have hRdef : getExecutionOrderFromIds sourceId nodes conns =
      (if (getDownstreamNodes sourceId (builtAdjList (nodeIds nodes) conns)
            (nodeIds nodes)).isEmpty then ([] : List String)
       else kahnLoop (builtAdjList (nodeIds nodes) conns)
         (getDownstreamNodes sourceId (builtAdjList (nodeIds nodes) conns)
            (nodeIds nodes)).length
         ((getDownstreamNodes sourceId (builtAdjList (nodeIds nodes) conns)
            (nodeIds nodes)).filter (fun v => lookupA
              (zeroDirect ((getDownstreamNodes sourceId (builtAdjList (nodeIds nodes) conns)
                  (nodeIds nodes)).map (fun v => (v, ((inbDown sourceId
                    (getDownstreamNodes sourceId (builtAdjList (nodeIds nodes) conns)
                      (nodeIds nodes)) conns v).length : Int))))
                (builtAdjList (nodeIds nodes) conns sourceId)) v = some 0))
         (zeroDirect ((getDownstreamNodes sourceId (builtAdjList (nodeIds nodes) conns)
              (nodeIds nodes)).map (fun v => (v, ((inbDown sourceId
                (getDownstreamNodes sourceId (builtAdjList (nodeIds nodes) conns)
                  (nodeIds nodes)) conns v).length : Int))))
            (builtAdjList (nodeIds nodes) conns sourceId)) []) := rfl
  set ids := nodeIds nodes with hidsdef
  set adjF := builtAdjList ids conns with hadjdef
  set K := getDownstreamNodes sourceId adjF ids with hKdef
  set deg0 := K.map (fun v => (v, ((inbDown sourceId K conns v).length : Int))) with hdeg0def
  set deg := zeroDirect deg0 (adjF sourceId) with hdegdef
  have hadjIds : ∀ w x, x ∈ adjF w → x ∈ ids := by
    intro w x hx
    obtain ⟨-, c, hc, -, ht⟩ := (mem_builtAdjList ids conns w x).mp hx
    exact hwfTo c hc x ht
  have hKfacts := bfsAux_nodup_closed adjF (fun x => x ∈ ids) hadjIds
    ((adjF sourceId).length + adjTotal adjF ids) (adjF sourceId) [] []
    List.nodup_nil (fun x hx => absurd hx (List.not_mem_nil x))
    (fun x hx => absurd hx (List.not_mem_nil x))
    (fun x hx => hadjIds sourceId x hx)
  have hKnodup : K.Nodup := hKfacts.1
  have hKids : ∀ x ∈ K, x ∈ ids := hKfacts.2
  have hneK : ∀ x ∈ K, x ≠ "" := by
    intro x hx
    have hxids := hKids x hx
    rw [hidsdef] at hxids
    unfold nodeIds at hxids
    rw [mem_dedupFirst, List.mem_map] at hxids
    obtain ⟨n, hn, hnx⟩ := hxids
    rw [← hnx]
    exact hneIds n hn
  have Hmult : ∀ u ∈ K, ∀ v ∈ K, (v ∉ adjF sourceId) →
      (adjF u).count v = (inbDown sourceId K conns v).count u := by
    intro u hu v hv _
    rw [count_inbDown sourceId K conns v u (Or.inr hu)]
    have hnodupAdj : (adjF u).Nodup := nodup_dedupFirst _
    by_cases hmem : v ∈ adjF u
    · rw [List.count_eq_one_of_mem hnodupAdj hmem]
      obtain ⟨huids, c, hc, hf, ht⟩ := (mem_builtAdjList ids conns u v).mp hmem
      have hfraw := (strVal_eq_some_iff _ _).mp hf
      have htraw := (strVal_eq_some_iff _ _).mp ht
      have hpos : 0 < conns.countP
          (fun c => c.fromNode = some u ∧ c.toNode = some v) := by
        rw [List.countP_pos_iff]
        exact ⟨c, hc, by simp [hfraw.1, htraw.1]⟩
      have hler := hpairs u v
      omega
    · rw [List.count_eq_zero_of_not_mem hmem]
      symm
      rw [List.countP_eq_zero]
      intro c hc hpred
      simp only [decide_eq_true_eq] at hpred
      apply hmem
      rw [mem_builtAdjList]
      refine ⟨hKids u hu, c, hc, ?_, ?_⟩
      · rw [strVal_eq_some_iff]
        exact ⟨hpred.1, hneK u hu⟩
      · rw [strVal_eq_some_iff]
        exact ⟨hpred.2, hneK v hv⟩
  by_cases hKE : K.isEmpty
  · rw [hRdef, if_pos hKE]
    refine ⟨List.nodup_nil, ?_, ?_⟩
    · intro x hx
      exact absurd hx (List.not_mem_nil x)
    · intro c hc u v hfu htv huK hvG j hj
      simp [List.get?] at hj
  · rw [hRdef, if_neg hKE]
    have hkeys : keysA deg = K := by
      rw [hdegdef, zeroDirect_keys, hdeg0def, keysA_mapfun]
    have hval : ∀ v ∈ K, (v ∉ adjF sourceId) →
        lookupA deg v = some ((inbDown sourceId K conns v).length : Int) := by
      intro v hv hg
      rw [hdegdef, zeroDirect_lookup]
      rw [if_neg (fun hh => hg hh.1)]
      rw [hdeg0def, lookupA_mapfun, if_pos hv]
    have hnpos : ∀ v ∈ K, ¬ (v ∉ adjF sourceId) →
        ∃ d, lookupA deg v = some d ∧ d ≤ 0 := by
      intro v hv hg
      have hvadj : v ∈ adjF sourceId := not_not.mp hg
      have hcon : containsA deg0 v = true := by
        rw [containsA_iff_keys, hdeg0def, keysA_mapfun]
        exact hv
      rw [hdegdef, zeroDirect_lookup, if_pos ⟨hvadj, hcon⟩]
      exact ⟨0, rfl, le_refl 0⟩
    have hInit := kahnInv_init adjF K (fun v => v ∉ adjF sourceId)
      (inbDown sourceId K conns) hKnodup deg hkeys hval hnpos
    obtain ⟨degf, hFinal⟩ := kahn_master adjF K (fun v => v ∉ adjF sourceId)
      (inbDown sourceId K conns) hKnodup Hmult K.length
      (K.filter (fun v => lookupA deg v = some 0)) deg [] hInit
      (by simp)
    refine ⟨?_, ?_, ?_⟩
    · have := hFinal.nodup
      simpa using this
    · exact hFinal.order_sub
    · intro c hc u v hfu htv huK hvG j hj
      exact kahn_final_before adjF K (fun v => v ∉ adjF sourceId)
        (inbDown sourceId K conns) degf _ hFinal j v hj hvG u
        ((mem_inbDown sourceId K conns v u).mpr ⟨c, hc, hfu, htv, Or.inr huK⟩)

theorem countP_pair_le_one {α : Type} (p : α → Bool) (a b : α)
    (h : ¬ (p a = true ∧ p b = true)) : List.countP p [a, b] ≤ 1 := by
  rw [List.countP_cons, List.countP_cons, List.countP_nil]
  by_cases ha : p a = true <;> by_cases hb : p b = true <;>
    simp [ha, hb] at h ⊢

/-- Witness graph for the amended claim C2: source S feeding A, A feeding
B. -/
def c2WitNodes : List NodeSpec := [
  { id := "S", type := "timer", eventFilters := none, eventFiltersAlt := none },
  { id := "A", type := "llm", eventFilters := none, eventFiltersAlt := none },
  { id := "B", type := "console-output", eventFilters := none, eventFiltersAlt := none }]

/-- Connections of the witness graph for claim C2. -/
def c2WitConns : List Connection := [
  { fromNode := some "S", fromPort := some "o", toNode := some "A", toPort := some "i" },
  { fromNode := some "A", fromPort := some "o", toNode := some "B", toPort := some "i" }]

/-- Claim C2 (witness for the amended theorem): on the concrete chain from
the source through A to B, the theorem places A strictly before B. -/
theorem c2_downstream_order_witness :
    ∃ i, i < 1 ∧ (getExecutionOrderFromIds "S" c2WitNodes c2WitConns).get? i = some "A" := by
  have hpairs : ∀ u v : String,
      c2WitConns.countP (fun c => c.fromNode = some u ∧ c.toNode = some v) ≤ 1 := by
    intro u v
    apply countP_pair_le_one
    rintro ⟨h1, h2⟩
    simp only [decide_eq_true_eq] at h1 h2
    have ha : some "S" = some u := h1.1
    have hb : some "A" = some u := h2.1
    rw [← hb] at ha
    exact absurd (Option.some_inj.mp ha) (by decide)
  have hwf : ∀ c ∈ c2WitConns, ∀ t, strVal c.toNode = some t →
      t ∈ nodeIds c2WitNodes := by
    intro c hc t ht
    simp only [c2WitConns, List.mem_cons, List.not_mem_nil, or_false] at hc
    rcases hc with rfl | rfl
    · have : (some "A" : Option String) = some t := ht
      rw [← Option.some_inj.mp this]
      decide
    · have : (some "B" : Option String) = some t := ht
      rw [← Option.some_inj.mp this]
      decide
  have hmain := c2_downstream_order_amended "S" c2WitNodes c2WitConns
    (by decide) hwf hpairs
  exact hmain.2.2
    { fromNode := some "A", fromPort := some "o", toNode := some "B", toPort := some "i" }
    (by decide) "A" "B" rfl rfl (by decide) (by decide) 1 (by decide)

/-! ## Instantiation for claim C4 -/

theorem bfsAux_nil_queue (adjF : String → List String) (fuel : Nat)
    (visited result : List String) :
    bfsAux adjF fuel [] visited result = result := by
  cases fuel <;> rfl

theorem mem_linearAdjList (ids : List String) (conns : List Connection)
    (u v : String) :
    v ∈ linearAdjList ids conns u ↔
      ∃ c ∈ conns, strVal c.fromNode = some u ∧ strVal c.toNode = some v ∧
        u ∈ ids ∧ v ∈ ids := by
  unfold linearAdjList
  rw [List.mem_filterMap]
  constructor
  · rintro ⟨c, hc, hg⟩
    cases hf : strVal c.fromNode with
    | none => rw [hf] at hg; exact Option.noConfusion hg
    | some f =>
        cases ht : strVal c.toNode with
        | none => rw [hf, ht] at hg; exact Option.noConfusion hg
        | some t =>
            rw [hf, ht] at hg
            dsimp only at hg
            by_cases hcond : f = u ∧ f ∈ ids ∧ t ∈ ids
            · rw [if_pos hcond] at hg
              have htv : t = v := Option.some_inj.mp hg
              subst htv
              obtain ⟨h1, h2, h3⟩ := hcond
              subst h1
              exact ⟨c, hc, hf, ht, h2, h3⟩
            · rw [if_neg hcond] at hg
              exact Option.noConfusion hg
  · rintro ⟨c, hc, hf, ht, hu, hv⟩
    refine ⟨c, hc, ?_⟩
    rw [hf, ht]
    dsimp only
    rw [if_pos ⟨rfl, hu, hv⟩]

theorem mem_filteredInbound (reach : List String) (conns : List Connection)
    (v u : String) :
    u ∈ filteredInbound reach conns v ↔
      ∃ c ∈ conns, c.fromNode = some u ∧ c.toNode = some v ∧
        u ∈ reach ∧ v ∈ reach := by
  unfold filteredInbound
  rw [List.mem_filterMap]
  constructor
  · rintro ⟨c, hc, hg⟩
    cases hf : c.fromNode with
    | none => rw [hf] at hg; exact Option.noConfusion hg
    | some f =>
        cases ht : c.toNode with
        | none => rw [hf, ht] at hg; exact Option.noConfusion hg
        | some t =>
            rw [hf, ht] at hg
            dsimp only at hg
            by_cases hcond : f ∈ reach ∧ t ∈ reach ∧ t = v
            · rw [if_pos hcond] at hg
              have hfu : f = u := Option.some_inj.mp hg
              subst hfu
              obtain ⟨h1, h2, h3⟩ := hcond
              subst h3
              exact ⟨c, hc, hf, ht, h1, h2⟩
            · rw [if_neg hcond] at hg
              exact Option.noConfusion hg
  · rintro ⟨c, hc, hf, ht, hu, hv⟩
    refine ⟨c, hc, ?_⟩
    rw [hf, ht]
    dsimp only
    rw [if_pos ⟨hu, hv, rfl⟩]

/-- Multiplicity agreement for the linear Kahn pass: for reachable u and v
with non-empty ids inside the node-id set, the number of occurrences of v
in the adjacency list of u equals the number of occurrences of u among the
reachable inbound sources of v (both count the connections from u to v). -/
theorem linear_mult (ids reach : List String) (conns : List Connection)
    (hsub : ∀ x ∈ reach, x ∈ ids) (hne : ∀ x ∈ reach, x ≠ "")
    (u v : String) (hu : u ∈ reach) (hv : v ∈ reach) :
    (linearAdjList ids conns u).count v = (filteredInbound reach conns v).count u := by
  unfold linearAdjList filteredInbound
  rw [count_filterMap, count_filterMap]
  apply List.countP_congr
  intro c hc
  simp only [decide_eq_true_eq]
  have hraw : ∀ (o : Option String) (x : String), x ≠ "" →
      (strVal o = some x ↔ o = some x) := by
    intro o x hx
    rw [strVal_eq_some_iff]
    exact ⟨fun h => h.1, fun h => ⟨h, hx⟩⟩
  constructor
  · intro hg
    cases hf : strVal c.fromNode with
    | none => rw [hf] at hg; exact Option.noConfusion hg
    | some f =>
        cases ht : strVal c.toNode with
        | none => rw [hf, ht] at hg; exact Option.noConfusion hg
        | some t =>
            rw [hf, ht] at hg
            dsimp only at hg
            by_cases hcond : f = u ∧ f ∈ ids ∧ t ∈ ids
            · rw [if_pos hcond] at hg
              have htv : t = v := Option.some_inj.mp hg
              subst htv
              obtain ⟨h1, -, -⟩ := hcond
              subst h1
              have hfr : c.fromNode = some f := ((hraw _ _ (hne f hu)).mp hf)
              have htr : c.toNode = some t := ((hraw _ _ (hne t hv)).mp ht)
              rw [hfr, htr]
              dsimp only
              rw [if_pos ⟨hu, hv, rfl⟩]
            · rw [if_neg hcond] at hg
              exact Option.noConfusion hg
  · intro hg
    cases hf : c.fromNode with
    | none => rw [hf] at hg; exact Option.noConfusion hg
    | some f =>
        cases ht : c.toNode with
        | none => rw [hf, ht] at hg; exact Option.noConfusion hg
        | some t =>
            rw [hf, ht] at hg
            dsimp only at hg
            by_cases hcond : f ∈ reach ∧ t ∈ reach ∧ t = v
            · rw [if_pos hcond] at hg
              have hfu : f = u := Option.some_inj.mp hg
              subst hfu
              obtain ⟨-, h2, h3⟩ := hcond
              subst h3
              have hfr : strVal (some f) = some f := by
                simp only [strVal]
                rw [if_neg (hne f hu)]
              have htr : strVal (some t) = some t := by
                simp only [strVal]
                rw [if_neg (hne t h2)]
              rw [hfr, htr]
              dsimp only
              rw [if_pos ⟨rfl, hsub f hu, hsub t h2⟩]
            · rw [if_neg hcond] at hg
              exact Option.noConfusion hg

theorem entryPoints_sub_ids (nodes : List NodeSpec) (conns : List Connection) :
    ∀ x ∈ entryPoints nodes conns, x ∈ nodeIds nodes := by
  intro x hx
  simp only [entryPoints] at hx
  by_cases hs : (startNodeIds nodes).isEmpty
  · rw [if_pos hs] at hx
    exact List.mem_of_mem_filter hx
  · rw [if_neg hs] at hx
    unfold startNodeIds at hx
    rw [List.mem_map] at hx
    obtain ⟨n, hn, hnx⟩ := hx
    unfold nodeIds
    rw [mem_dedupFirst, List.mem_map]
    exact ⟨n, List.mem_of_mem_filter hn, hnx⟩

/-- Claim C4 (amended): in linear mode, on a graph whose node ids are all
non-empty (truthy) and whose connections between reachable nodes are
acyclic (witnessed by a rank function strictly increasing along them), the
computed execution order contains exactly the nodes reachable from the
entry set — start nodes when any exist, else whole-graph in-degree-zero
nodes — each once, and it is a topological order: for every connection
between two reachable nodes, the origin is placed strictly before the
target. Nodes unreachable from the entry set are excluded from the
order. -/
theorem c4_linear_order_amended (nodes : List NodeSpec) (conns : List Connection)
    (rank : String → Nat)
    (hneIds : ∀ n ∈ nodes, n.id ≠ "")
    (hrank : ∀ c ∈ conns, ∀ f t : String, c.fromNode = some f → c.toNode = some t →
      f ∈ linearReachable nodes conns → t ∈ linearReachable nodes conns →
      rank f < rank t) :
    (getExecutionOrderIds nodes conns).Nodup ∧
    (∀ v, v ∈ getExecutionOrderIds nodes conns ↔ v ∈ linearReachable nodes conns) ∧
    (∀ c ∈ conns, ∀ u v : String, c.fromNode = some u → c.toNode = some v →
      u ∈ linearReachable nodes conns → v ∈ linearReachable nodes conns →
      ∀ j, (getExecutionOrderIds nodes conns).get? j = some v →
        ∃ i, i < j ∧ (getExecutionOrderIds nodes conns).get? i = some u) := by
  have hRdef : getExecutionOrderIds nodes conns =
      (if nodes.isEmpty then []
       else if (entryPoints nodes conns).isEmpty then ([] : List String)
       else kahnLoop (linearAdjList (nodeIds nodes) conns)
         (linearReachable nodes conns).length
         ((linearReachable nodes conns).filter (fun v => lookupA
           ((linearReachable nodes conns).map (fun v =>
             (v, ((filteredInbound (linearReachable nodes conns) conns v).length : Int)))) v
             = some 0))
         ((linearReachable nodes conns).map (fun v =>
           (v, ((filteredInbound (linearReachable nodes conns) conns v).length : Int))))
         []) := rfl
  have hKbfs : linearReachable nodes conns =
      bfsAux (linearAdjList (nodeIds nodes) conns)
        ((entryPoints nodes conns).length +
          adjTotal (linearAdjList (nodeIds nodes) conns) (nodeIds nodes))
        (entryPoints nodes conns) [] [] := rfl
  set ids := nodeIds nodes with hidsdef
  set entry := entryPoints nodes conns with hentrydef
  set adjF := linearAdjList ids conns with hadjdef
  set K := linearReachable nodes conns with hKdef
  set deg := K.map (fun v => (v, ((filteredInbound K conns v).length : Int))) with hdegdef
  have hadjIds : ∀ w x, x ∈ adjF w → x ∈ ids := by
    intro w x hx
    obtain ⟨c, hc, -, -, -, hxids⟩ := (mem_linearAdjList ids conns w x).mp hx
    exact hxids
  have hEntryIds : ∀ x ∈ entry, x ∈ ids := by
    rw [hentrydef, hidsdef]
    exact entryPoints_sub_ids nodes conns
  have hKfacts := bfsAux_nodup_closed adjF (fun x => x ∈ ids) hadjIds
    (entry.length + adjTotal adjF ids) entry [] []
    List.nodup_nil (fun x hx => absurd hx (List.not_mem_nil x))
    (fun x hx => absurd hx (List.not_mem_nil x)) hEntryIds
  rw [← hKbfs] at hKfacts
  have hKnodup : K.Nodup := hKfacts.1
  have hKids : ∀ x ∈ K, x ∈ ids := hKfacts.2
  have hneK : ∀ x ∈ K, x ≠ "" := by
    intro x hx
    have hxids := hKids x hx
    rw [hidsdef] at hxids
    unfold nodeIds at hxids
    rw [mem_dedupFirst, List.mem_map] at hxids
    obtain ⟨n, hn, hnx⟩ := hxids
    rw [← hnx]
    exact hneIds n hn
  have Hmult : ∀ u ∈ K, ∀ v ∈ K, True →
      (adjF u).count v = (filteredInbound K conns v).count u := by
    intro u hu v hv _
    exact linear_mult ids K conns hKids hneK u v hu hv
  by_cases hNE : nodes.isEmpty
  · have hK_nil : K = [] := by
      rw [List.eq_nil_iff_forall_not_mem]
      intro x hx
      have hxids := hKids x hx
      have hnodes : nodes = [] := by
        rw [List.isEmpty_iff] at hNE
        exact hNE
      rw [hidsdef, hnodes] at hxids
      exact absurd hxids (List.not_mem_nil x)
    rw [hRdef, if_pos hNE]
    refine ⟨List.nodup_nil, ?_, ?_⟩
    · intro v
      rw [hK_nil]
    · intro c hc u v hfu htv huK hvK j hj
      simp [List.get?] at hj
  · by_cases hEE : entry.isEmpty
    · have hentry_nil : entry = [] := by
        rw [List.isEmpty_iff] at hEE
        exact hEE
      have hK_nil : K = [] := by
        rw [hKbfs, hentry_nil, bfsAux_nil_queue]
      rw [hRdef, if_neg hNE, if_pos hEE]
      refine ⟨List.nodup_nil, ?_, ?_⟩
      · intro v
        rw [hK_nil]
      · intro c hc u v hfu htv huK hvK j hj
        simp [List.get?] at hj
    · rw [hRdef, if_neg hNE, if_neg hEE]
      have hkeys : keysA deg = K := by
        rw [hdegdef, keysA_mapfun]
      have hval : ∀ v ∈ K, True →
          lookupA deg v = some ((filteredInbound K conns v).length : Int) := by
        intro v hv _
        rw [hdegdef, lookupA_mapfun, if_pos hv]
      have hnpos : ∀ v ∈ K, ¬ True → ∃ d, lookupA deg v = some d ∧ d ≤ 0 := by
        intro v hv hg
        exact absurd trivial hg
      have hInit := kahnInv_init adjF K (fun _ => True)
        (filteredInbound K conns) hKnodup deg hkeys hval hnpos
      obtain ⟨degf, hFinal⟩ := kahn_master adjF K (fun _ => True)
        (filteredInbound K conns) hKnodup Hmult K.length
        (K.filter (fun v => lookupA deg v = some 0)) deg [] hInit
        (by simp)
      have hcomp : ∀ n : Nat, ∀ v : String, v ∈ K → rank v < n →
          v ∈ kahnLoop adjF K.length
            (K.filter (fun v => lookupA deg v = some 0)) deg [] := by
        intro n
        induction n with
        | zero =>
            intro v hv h
            omega
        | succ n ihn =>
            intro v hv hrv
            apply kahn_final_complete adjF K (fun _ => True)
              (filteredInbound K conns) degf _ hFinal v hv trivial
            intro u hu
            obtain ⟨c, hc, hf, ht, huK, hvK⟩ := (mem_filteredInbound K conns v u).mp hu
            have hlt : rank u < rank v := hrank c hc u v hf ht huK hvK
            exact ihn u huK (by omega)
      refine ⟨?_, ?_, ?_⟩
      · have := hFinal.nodup
        simpa using this
      · intro v
        constructor
        · exact fun h => hFinal.order_sub v h
        · intro hv
          exact hcomp (rank v + 1) v hv (Nat.lt_succ_self _)
      · intro c hc u v hfu htv huK hvK j hj
        exact kahn_final_before adjF K (fun _ => True) (filteredInbound K conns)
          degf _ hFinal j v hj trivial u
          ((mem_filteredInbound K conns v u).mpr ⟨c, hc, hfu, htv, huK, hvK⟩)

/-- Witness graph for the amended claim C4: a start node s feeding a, a
feeding b, and an unreachable node c. -/
def c4WitNodes : List NodeSpec := [
  { id := "s", type := "start", eventFilters := none, eventFiltersAlt := none },
  { id := "a", type := "llm", eventFilters := none, eventFiltersAlt := none },
  { id := "b", type := "console-output", eventFilters := none, eventFiltersAlt := none },
  { id := "c", type := "data-formatter", eventFilters := none, eventFiltersAlt := none }]

/-- Connections of the witness graph for claim C4. -/
def c4WitConns : List Connection := [
  { fromNode := some "s", fromPort := some "o", toNode := some "a", toPort := some "i" },
  { fromNode := some "a", fromPort := some "o", toNode := some "b", toPort := some "i" }]

/-- Rank function witnessing acyclicity of the claim-C4 witness graph. -/
def c4rank (v : String) : Nat :=
  if v = "s" then 0 else if v = "a" then 1 else 2

/-- Claim C4 (witness for the amended theorem): on the concrete chain from
the start node s through a to b (with c unreachable), the theorem places a
strictly before b in the linear execution order. -/
theorem c4_linear_order_witness :
    ∃ i, i < 2 ∧ (getExecutionOrderIds c4WitNodes c4WitConns).get? i = some "a" := by
  have hrank : ∀ c ∈ c4WitConns, ∀ f t : String,
      c.fromNode = some f → c.toNode = some t →
      f ∈ linearReachable c4WitNodes c4WitConns →
      t ∈ linearReachable c4WitNodes c4WitConns →
      c4rank f < c4rank t := by
    intro c hc f t hf ht _ _
    simp only [c4WitConns, List.mem_cons, List.not_mem_nil, or_false] at hc
    rcases hc with rfl | rfl
    · have h1 : (some "s" : Option String) = some f := hf
      have h2 : (some "a" : Option String) = some t := ht
      rw [← Option.some_inj.mp h1, ← Option.some_inj.mp h2]
      decide
    · have h1 : (some "a" : Option String) = some f := hf
      have h2 : (some "b" : Option String) = some t := ht
      rw [← Option.some_inj.mp h1, ← Option.some_inj.mp h2]
      decide
  have hmain := c4_linear_order_amended c4WitNodes c4WitConns c4rank
    (by decide) hrank
  exact hmain.2.2
    { fromNode := some "a", fromPort := some "o", toNode := some "b", toPort := some "i" }
    (by decide) "a" "b" rfl rfl (by decide) (by decide) 2 (by decide)
